import Mathlib

/-!
NewtIO, the I/O layer of the NEWT/0 runtime.

A shallow embedding of `src/newt_core/NewtIO.c` and theorems about it.

* A stdio `FILE` is explicit state: the bytes still unread on its input side
  and the bytes written so far on its output side.
* The two compile-time constants of `NewtConf.h` (`NEWT_FGETS_BUFFSIZE`,
  `NEWT_SNPRINTF_BUFFSIZE`) and the signedness of plain `char` are parameters.
* The object system (`NewtCore.h`) is modelled by the small interface the
  file uses: string creation, string append, length, the string test and the
  error signal.
-/

namespace Newt0

/-! ## Bytes and C strings -/

/-- One byte of a `char` array or of a stdio stream. -/
abbrev Byte := Fin 256

/-- The line feed character. -/
abbrev LF : Byte := 10

/-- The carriage return character. -/
abbrev CR : Byte := 13

/-- The string terminator. -/
abbrev NUL : Byte := 0

/-- The stdio end-of-file value. -/
abbrev EOF : Int := -1

/-- The C string that starts at a `char *`: the bytes before the first NUL. -/
def cstr (str : List Byte) : List Byte :=
  str.takeWhile (fun b => b ≠ NUL)

/-- The libc function `strlen`. -/
def strlen (str : List Byte) : Nat :=
  (cstr str).length

/-- Conversion of an `int` to `unsigned char`, as stdio does on output and on
push-back. -/
def toUChar (c : Int) : Byte :=
  Fin.ofNat (c % 256).toNat

/-- Value of a plain `char` variable after an `int` was assigned to it, once
promoted back to `int`: where `char` is signed the values 128..255 become
negative, where it is unsigned every value is reduced to 0..255. -/
def toChar (charSigned : Bool) (v : Int) : Int :=
  if charSigned then (v + 128) % 256 - 128 else v % 256

/-! ## stdio streams -/

/-- A stdio stream as explicit state. `unread` holds the bytes the next reads
will deliver, `written` the bytes written so far (the position of an output
stream is its length), `werr` says whether writes to the handle fail, and `fd`
identifies the handle (`1` is `stdout`, `2` is `stderr`). -/
structure FILE where
  fd : Nat
  unread : List Byte
  written : List Byte
  werr : Bool
deriving DecidableEq, Repr

/-- The libc function `fgetc`: the next byte as a non-negative `int`, or `EOF`. -/
def fgetc (stream : FILE) : Int × FILE :=
  match stream.unread with
  | [] => (EOF, stream)
  | b :: rest => ((b.val : Int), { stream with unread := rest })

/-- The libc function `ungetc`: pushing back `EOF` fails and leaves the stream
unchanged, any other value is converted to `unsigned char` and becomes the
next byte to be read. -/
def ungetc (c : Int) (stream : FILE) : FILE :=
  if c = EOF then stream else { stream with unread := toUChar c :: stream.unread }

/-- Bytes one `fgets` call takes from the source: at most `n`, stopping after
the first line feed. Returns the bytes taken and the bytes left. -/
def fgetsRead : Nat → List Byte → List Byte × List Byte
  | 0, s => ([], s)
  | _ + 1, [] => ([], [])
  | n + 1, b :: s =>
    if b = LF then ([b], s)
    else ((b :: (fgetsRead n s).1), (fgetsRead n s).2)

/-- The libc function `fgets(buff, size, stream)`. `none` is the `NULL`
result (nothing could be read). Otherwise the result is the content stored in
the buffer, the bytes taken followed by the terminator, and the stream after
the call. A `size` of one stores only the terminator without reading. -/
def fgets (size : Nat) (stream : FILE) : Option (List Byte × FILE) :=
  if size = 0 then none
  else if size = 1 then some ([NUL], stream)
  else if stream.unread = [] then none
  else
    some ((fgetsRead (size - 1) stream.unread).1 ++ [NUL],
          { stream with unread := (fgetsRead (size - 1) stream.unread).2 })

/-! ## The object system, as far as `NewtIO.c` uses it -/

/-- Modelled from the spec: the object references of `NewtCore.h` that
`NewtIO.c` handles. A string reference is shown with the content of the
string object it points to; `Throw` is the runtime error signal, which is an
ordinary return value, and `ThrowValue` the signal that carries an integer. -/
inductive newtRef where
  | NIL
  | Unbind
  | Integer (n : Int)
  | String (s : List Byte)
  | Throw (err : Int)
  | Character (c : Int)
  | ThrowValue (err : Int) (value : Int)
deriving DecidableEq, Repr

/-- Modelled from the spec: the allocator of the object system, absent from
the sources at hand. `canAlloc n` says whether a string object of `n` bytes
can be obtained. -/
structure ObjMem where
  canAlloc : Nat → Bool

/-- Every allocation request is satisfied. -/
def ObjMem.AllocOK (mem : ObjMem) : Prop :=
  ∀ n, mem.canAlloc n = true

/-- An object memory that never runs out. -/
def ObjMem.unbounded : ObjMem :=
  ⟨fun _ => true⟩

/-- An object memory holding strings of at most `limit` bytes. -/
def ObjMem.bounded (limit : Nat) : ObjMem :=
  ⟨fun n => decide (n ≤ limit)⟩

/-- Modelled from the spec: the error code for exhausted object memory
(`NewtErrs.h` is absent). -/
def kNErrOutOfObjectMemory : Int := -48216

/-- Modelled from the spec: `NewtThrow0` raises the error signal, which
becomes the result of the function that raises it. -/
def NewtThrow0 (err : Int) : newtRef :=
  newtRef.Throw err

/-- Modelled from the spec: `NewtRefIsNIL`, the identity test against nil. -/
def NewtRefIsNIL (r : newtRef) : Bool :=
  decide (r = newtRef.NIL)

/-- Modelled from the spec: `NewtRefIsString`, true exactly for a reference
to a string object. -/
def NewtRefIsString (r : newtRef) : Bool :=
  match r with
  | newtRef.String _ => true
  | _ => false

/-- Modelled from the spec: `NewtStringLength`, the current length of a
String Sink (zero for anything else). -/
def NewtStringLength (r : newtRef) : Nat :=
  match r with
  | newtRef.String s => s.length
  | _ => 0

/-- Modelled from the spec: `NewtMakeString2(s, len, false)` creates a String
Sink from the first `len` bytes of a buffer and yields nil when the
allocation cannot be satisfied. -/
def NewtMakeString2 (mem : ObjMem) (s : List Byte) (len : Nat) : newtRef :=
  if mem.canAlloc len then newtRef.String (s.take len) else newtRef.NIL

/-- Modelled from the spec: `NewtStrCat2(r, s, len)` appends the first `len`
bytes of a buffer to a String Sink in place; when the sink cannot grow it is
left as it was, so its length falls short of the prior length plus `len`. -/
def NewtStrCat2 (mem : ObjMem) (r : newtRef) (s : List Byte) (len : Nat) : newtRef :=
  match r with
  | newtRef.String old =>
    if mem.canAlloc (old.length + len) then newtRef.String (old ++ s.take len)
    else newtRef.String old
  | other => other

/-- Modelled from the spec: `NewtStrCat(r, s)` appends a C string, that is
`NewtStrCat2(r, s, strlen(s))`. -/
def NewtStrCat (mem : ObjMem) (r : newtRef) (s : List Byte) : newtRef :=
  NewtStrCat2 mem r s (strlen s)

/-! ## The Line Reader `NewtFgets` -/

/-- The variables of `NewtFgets` that live across loop iterations, with a
count of the fills done so far. -/
structure FgetsState where
  result : newtRef
  stream : FILE
  fills : Nat
deriving DecidableEq, Repr

/-- How one pass through the `while` loop of `NewtFgets` ends: the function
returns, or the loop condition is evaluated again. -/
inductive FgetsStep where
  | ret (st : FgetsState)
  | again (st : FgetsState)
deriving DecidableEq, Repr

/-- Lines 301-319 of `NewtFgets`: the first fill creates the result string,
a later fill is appended to it. `none` stands for the two places that
return `NewtThrow0(kNErrOutOfObjectMemory)`. -/
def NewtFgetsStore (mem : ObjMem) (result : newtRef) (str : List Byte) (len : Nat) :
    Option newtRef :=
  if result = newtRef.NIL then
    if NewtRefIsNIL (NewtMakeString2 mem str len) then none
    else some (NewtMakeString2 mem str len)
  else
    if NewtStringLength (NewtStrCat2 mem result str len) < NewtStringLength result + len then none
    else some (NewtStrCat2 mem result str len)

/-- Lines 321-341 of `NewtFgets`: the tests made after a fill was stored.
`c` is first the last byte of the buffer, then the lookahead read by `fgetc`,
which passes through the `char` variable before it is compared and pushed
back. `none` stands for undefined behaviour: with a one-byte buffer
`maxsize` is zero and `buff[maxsize - 1]` lies before the buffer. -/
def NewtFgetsCheck (maxsize : Nat) (charSigned : Bool) (buff : List Byte) (len : Nat)
    (result : newtRef) (stream : FILE) (fills : Nat) : Option FgetsStep :=
  if len < maxsize then some (FgetsStep.ret ⟨result, stream, fills⟩)
  else if maxsize = 0 then none
  else if buff.getD (maxsize - 1) NUL = LF then some (FgetsStep.ret ⟨result, stream, fills⟩)
  else if buff.getD (maxsize - 1) NUL = CR then
    if toChar charSigned (fgetc stream).1 ≠ 10 then
      some (FgetsStep.ret
        ⟨result, ungetc (toChar charSigned (fgetc stream).1) (fgetc stream).2, fills⟩)
    else some (FgetsStep.again ⟨result, (fgetc stream).2, fills⟩)
  else some (FgetsStep.again ⟨result, stream, fills⟩)

/-- One evaluation of the loop condition `str = fgets(buff, sizeof(buff),
stream)` of `NewtFgets` followed by the loop body. When `fgets` yields `NULL`
the loop ends and `result` is returned as it stands. -/
def NewtFgetsBody (NEWT_FGETS_BUFFSIZE : Nat) (charSigned : Bool) (mem : ObjMem)
    (st : FgetsState) : Option FgetsStep :=
  match fgets NEWT_FGETS_BUFFSIZE st.stream with
  | none => some (FgetsStep.ret st)
  | some (buff, stream1) =>
    match NewtFgetsStore mem st.result buff (strlen buff) with
    | none =>
      some (FgetsStep.ret ⟨NewtThrow0 kNErrOutOfObjectMemory, stream1, st.fills + 1⟩)
    | some result =>
      NewtFgetsCheck (NEWT_FGETS_BUFFSIZE - 1) charSigned buff (strlen buff) result stream1
        (st.fills + 1)

/-- The `while` loop of `NewtFgets`, run for at most `fuel` passes; `none`
when the passes do not suffice or the behaviour is undefined. -/
def NewtFgetsLoop (NEWT_FGETS_BUFFSIZE : Nat) (charSigned : Bool) (mem : ObjMem) :
    Nat → FgetsState → Option FgetsState
  | 0, _ => none
  | fuel + 1, st =>
    match NewtFgetsBody NEWT_FGETS_BUFFSIZE charSigned mem st with
    | none => none
    | some (FgetsStep.ret st1) => some st1
    | some (FgetsStep.again st1) =>
      NewtFgetsLoop NEWT_FGETS_BUFFSIZE charSigned mem fuel st1

/-- The function `NewtFgets(stream)`: `result` starts as nil and the loop
runs until it returns. Every pass that loops again has taken a byte from the
source, so one pass more than the number of unread bytes always suffices. -/
def NewtFgets (NEWT_FGETS_BUFFSIZE : Nat) (charSigned : Bool) (mem : ObjMem)
    (stream : FILE) : Option FgetsState :=
  NewtFgetsLoop NEWT_FGETS_BUFFSIZE charSigned mem (stream.unread.length + 1)
    ⟨newtRef.NIL, stream, 0⟩

/-- A source positioned at the start of the given bytes. -/
def FILE.ofBytes (bytes : List Byte) : FILE :=
  ⟨0, bytes, [], false⟩


/-! ## libc output, as far as `NewtIO.c` uses it -/

/-- What a template and its arguments render to. `complete r` gives the bytes
of the complete render; `failed before` stands for a conversion that fails,
with the bytes produced before the failure. -/
inductive Render where
  | complete (r : List Byte)
  | failed (before : List Byte)
deriving DecidableEq, Repr

/-- The libc function `vsnprintf(wk, size, format, ap)`. The result is the
part of `wk` that the call defines and the value returned. For a complete
render these are at most `size - 1` bytes of the render followed by the
terminator, and the length of the complete render. For a conversion that
fails they are what was produced before the failure, as far as it fits and
without a terminator, and a negative value. -/
def vsnprintf (size : Nat) (render : Render) : List Byte × Int :=
  match render with
  | Render.failed before => (if size = 0 then [] else before.take (size - 1), -1)
  | Render.complete r =>
    (if size = 0 then [] else r.take (size - 1) ++ [NUL], (r.length : Int))

/-- The libc function `vfprintf(file, format, ap)`: the complete render is
written and its length returned. When a conversion fails, what was produced
before the failure has been written and a negative value is returned. A
failing handle yields a negative value and nothing is written. -/
def vfprintf (file : FILE) (render : Render) : Int × FILE :=
  if file.werr then (-1, file)
  else
    match render with
    | Render.failed before => (-1, { file with written := file.written ++ before })
    | Render.complete r => ((r.length : Int), { file with written := file.written ++ r })

/-- The libc function `fputc(c, file)`: writes `c` converted to `unsigned
char` and returns it, or returns `EOF`. -/
def fputc (c : Int) (file : FILE) : Int × FILE :=
  if file.werr then (EOF, file)
  else (((toUChar c).val : Int), { file with written := file.written ++ [toUChar c] })

/-- The libc function `fputs(str, file)`: writes the C string and returns a
non-negative value, or returns `EOF`. -/
def fputs (str : List Byte) (file : FILE) : Int × FILE :=
  if file.werr then (EOF, file)
  else (1, { file with written := file.written ++ cstr str })

/-- The buffer after `sprintf(wk, "%c", c)`: the character and the
terminator. -/
def sprintf_c (c : Int) : List Byte :=
  [toUChar c, NUL]

/-! ## The Stream Descriptor and the writers -/

/-- The structure `newtStream_t`: a file handle and the object that may
redirect output to a String Sink. -/
structure newtStream_t where
  file : FILE
  obj : newtRef
deriving DecidableEq, Repr

/-- Modelled from the spec: the two global variables that `NIOSetFile` looks
up by name, `none` when the variable is not defined. -/
structure Globals where
  _STDOUT_ : Option newtRef
  _STDERR_ : Option newtRef
deriving DecidableEq, Repr

/-- Modelled from the spec: `NcGetGlobalVar`; a missing global resolves to an
inert value, not a fault. -/
def NcGetGlobalVar (v : Option newtRef) : newtRef :=
  v.getD newtRef.Unbind

/-- The function `NIOSetFile(stream, f)`, with `stdout` and `stderr` the
handles 1 and 2. -/
def NIOSetFile (globals : Globals) (f : FILE) : newtStream_t :=
  { file := f
    obj :=
      if f.fd = 1 then NcGetGlobalVar globals._STDOUT_
      else if f.fd = 2 then NcGetGlobalVar globals._STDERR_
      else newtRef.Unbind }

/-- What a call of `NIOVfprintf` leaves: the value returned, the descriptor
with the state of its file handle and of its target object, and the indices
of `wk` that the function itself assigned. -/
structure VfprintfOut where
  result : Int
  stream : newtStream_t
  stores : List Nat
deriving DecidableEq, Repr

/-- The function `NIOVfprintf(stream, format, ap)`; `NEWT_SNPRINTF_BUFFSIZE`
is `sizeof(wk)`. -/
def NIOVfprintf (NEWT_SNPRINTF_BUFFSIZE : Nat) (mem : ObjMem) (stream : newtStream_t)
    (render : Render) : VfprintfOut :=
  if NewtRefIsString stream.obj then
    let wk := (vsnprintf NEWT_SNPRINTF_BUFFSIZE render).1
    let result := (vsnprintf NEWT_SNPRINTF_BUFFSIZE render).2
    if 0 < result then
      if (NEWT_SNPRINTF_BUFFSIZE : Int) < result then
        ⟨result,
         { stream with
           obj := NewtStrCat mem stream.obj (wk.set (NEWT_SNPRINTF_BUFFSIZE - 1) NUL) },
         [NEWT_SNPRINTF_BUFFSIZE - 1]⟩
      else
        ⟨result, { stream with obj := NewtStrCat mem stream.obj wk }, []⟩
    else ⟨result, stream, []⟩
  else
    ⟨(vfprintf stream.file render).1,
     { stream with file := (vfprintf stream.file render).2 }, []⟩

/-- The function `NIOFprintf(stream, format, ...)`: it hands its arguments to
`NIOVfprintf` and returns its result. -/
def NIOFprintf (NEWT_SNPRINTF_BUFFSIZE : Nat) (mem : ObjMem) (stream : newtStream_t)
    (render : Render) : VfprintfOut :=
  NIOVfprintf NEWT_SNPRINTF_BUFFSIZE mem stream render

/-- The function `NewtFprintf(f, format, ...)`: a descriptor is bound to `f`
and `NIOVfprintf` is called on it. -/
def NewtFprintf (NEWT_SNPRINTF_BUFFSIZE : Nat) (mem : ObjMem) (globals : Globals) (f : FILE)
    (render : Render) : VfprintfOut :=
  NIOVfprintf NEWT_SNPRINTF_BUFFSIZE mem (NIOSetFile globals f) render

/-- The function `NIOFputc(c, stream)`. -/
def NIOFputc (mem : ObjMem) (c : Int) (stream : newtStream_t) : Int × newtStream_t :=
  if NewtRefIsString stream.obj then
    (0, { stream with obj := NewtStrCat mem stream.obj (sprintf_c c) })
  else
    ((fputc c stream.file).1, { stream with file := (fputc c stream.file).2 })

/-- The function `NIOFputs(str, stream)`. -/
def NIOFputs (mem : ObjMem) (str : List Byte) (stream : newtStream_t) : Int × newtStream_t :=
  if NewtRefIsString stream.obj then
    (0, { stream with obj := NewtStrCat mem stream.obj str })
  else
    ((fputs str stream.file).1, { stream with file := (fputs str stream.file).2 })

/-! ## The Raw Key Reader `NsGetch` -/

/-- Modelled from the spec: the error code of the system-error kind
(`NewtErrs.h` is absent). -/
def kNErrSystemError : Int := -48500

/-- Modelled from the spec: `NewtThrow(err, value)` raises the error signal of
kind `err` carrying `value`; the signal becomes the result of the function
that raises it. -/
def NewtThrow (err : Int) (value : Int) : newtRef :=
  newtRef.ThrowValue err value

/-- Modelled from the spec: `NewtMakeCharacter` wraps a character code as a
runtime character value. -/
def NewtMakeCharacter (c : Int) : newtRef :=
  newtRef.Character c

/-- The structure `termios`, as far as `NsGetch` touches it: the local-mode
flags `ICANON` and `ECHO`, the control characters `VTIME` and `VMIN`, and all
the rest of the terminal attributes. -/
structure termios where
  ICANON : Bool
  ECHO : Bool
  VTIME : Nat
  VMIN : Nat
  others : Nat
deriving DecidableEq, Repr

/-- What the one call `read(fd, buf, sizeof(buf))` of `NsGetch` finds: a byte
(the call returns 1), nothing (it returns 0) or an error (it returns -1). -/
inductive ReadOutcome where
  | byte (b : Byte)
  | nothing
  | failure (err : Int)
deriving DecidableEq, Repr

/-- The controlling terminal on descriptor 0 and the `errno` of the process,
as explicit state. `mode` is the current terminal mode. `getattrErr` is the
error with which `tcgetattr` fails, if it does; `setattrErr` lists, for the
calls of `tcsetattr` to come, the error with which each fails, if it does (a
call beyond the list succeeds); `pending` is what `read` will find. -/
structure Terminal where
  mode : termios
  errno : Int
  getattrErr : Option Int
  setattrErr : List (Option Int)
  pending : ReadOutcome
deriving DecidableEq, Repr

/-- The libc function `tcgetattr(fd, &tios)`: `none` is the result -1, with
`errno` set; otherwise the current mode is stored. -/
def tcgetattr (t : Terminal) : Option termios × Terminal :=
  match t.getattrErr with
  | some e => (none, { t with errno := e })
  | none => (some t.mode, t)

/-- The libc function `tcsetattr(fd, TCSANOW, &tios)`: on success the mode
becomes `tios` and 0 is returned; on failure the mode stays, `errno` is set
and -1 is returned. -/
def tcsetattr (tios : termios) (t : Terminal) : Int × Terminal :=
  match t.setattrErr with
  | [] => (0, { t with mode := tios })
  | none :: rest => (0, { t with mode := tios, setattrErr := rest })
  | some e :: rest => (-1, { t with errno := e, setattrErr := rest })

/-- The call `read(fd, buf, sizeof(buf))` with a buffer of one byte: the value
returned, the content of `buf[0]` when a byte was read, and the state after
the call. -/
def read (t : Terminal) : Int × Byte × Terminal :=
  match t.pending with
  | ReadOutcome.byte b => (1, b, { t with pending := ReadOutcome.nothing })
  | ReadOutcome.nothing => (0, NUL, t)
  | ReadOutcome.failure e => (-1, NUL, { t with errno := e })

/-- What a call of `NsGetch` leaves: its result and the terminal. -/
structure GetchOut where
  result : newtRef
  terminal : Terminal
deriving DecidableEq, Repr

/-- The function `NsGetch(rcvr)` of the branch without `__WIN32__`.
`NewtRefToInteger`, a macro of the absent `NewtCore.h`, is a parameter. The
results of both `tcsetattr` calls are dropped, as in the source; `c` is the
`int` that receives `buf[0]`, a plain `char`. -/
def NsGetch (charSigned : Bool) (NewtRefToInteger : Int → Int) (t : Terminal) : GetchOut :=
  match tcgetattr t with
  | (none, t1) => ⟨NewtThrow kNErrSystemError (NewtRefToInteger t1.errno), t1⟩
  | (some tios_save, t1) =>
    let tios : termios :=
      { tios_save with ICANON := false, ECHO := false, VTIME := 0, VMIN := 1 }
    let t2 := (tcsetattr tios t1).2
    let c : Int := if 0 < (read t2).1 then toChar charSigned ((read t2).2.1.val : Int) else 0
    let t4 := (tcsetattr tios_save (read t2).2.2).2
    if c ≠ 0 then ⟨NewtMakeCharacter c, t4⟩ else ⟨newtRef.NIL, t4⟩

/-- The terminal mode of a line-buffered, echoing terminal. -/
def termios.cooked : termios :=
  ⟨true, true, 0, 1, 0⟩

/-! ## What the specification calls a line -/

/-- The first line of an input in the words of the specification: the bytes up
to and including the first line feed, or the whole input when it has none. -/
def firstLine (input : List Byte) : List Byte :=
  input.takeWhile (fun b => b ≠ LF) ++ (input.dropWhile (fun b => b ≠ LF)).take 1

/-- The bytes of an input that follow its first line. -/
def afterFirstLine (input : List Byte) : List Byte :=
  (input.dropWhile (fun b => b ≠ LF)).drop 1

/-- The text held by a result under construction: empty while it is nil. -/
def accText (r : newtRef) : List Byte :=
  match r with
  | newtRef.String s => s
  | _ => []

/-! ## Theorems -/

/-! ### C strings -/

theorem cstr_nil : cstr [] = [] := rfl

theorem cstr_cons (b : Byte) (r : List Byte) :
    cstr (b :: r) = if b ≠ NUL then b :: cstr r else [] := by
  unfold cstr
  by_cases h : b = NUL <;> simp [List.takeWhile_cons, h]

theorem cstr_append_nul (r : List Byte) : cstr (r ++ [NUL]) = cstr r := by
  induction r with
  | nil => simp [cstr]
  | cons b r ih =>
    rw [List.cons_append, cstr_cons, cstr_cons, ih]

theorem cstr_of_noNul (r : List Byte) (h : ∀ b ∈ r, b ≠ NUL) : cstr r = r := by
  induction r with
  | nil => rfl
  | cons b r ih =>
    have hb : b ≠ NUL := h b (List.mem_cons_self b r)
    have hr : ∀ x ∈ r, x ≠ NUL := fun x hx => h x (List.mem_cons_of_mem b hx)
    rw [cstr_cons, ih hr]
    simp [hb]

theorem take_strlen (str : List Byte) : str.take (strlen str) = cstr str := by
  induction str with
  | nil => rfl
  | cons b r ih =>
    unfold strlen at *
    rw [cstr_cons]
    by_cases h : b = NUL
    · simp [h]
    · simp [h, ih]

theorem cstr_length_le (str : List Byte) : (cstr str).length ≤ str.length := by
  induction str with
  | nil => simp [cstr]
  | cons b r ih =>
    rw [cstr_cons]
    by_cases h : b = NUL
    · simp [h]
    · simp [h]; exact ih

/-- What a fill stores: the bytes of the buffer before its first NUL. -/
theorem take_strlen_buff (r : List Byte) :
    (r ++ [NUL]).take (strlen (r ++ [NUL])) = cstr r := by
  rw [take_strlen, cstr_append_nul]

theorem strlen_buff (r : List Byte) : strlen (r ++ [NUL]) = (cstr r).length := by
  unfold strlen
  rw [cstr_append_nul]

/-! ### `fgets` -/

theorem fgetsRead_append (n : Nat) (s : List Byte) :
    (fgetsRead n s).1 ++ (fgetsRead n s).2 = s := by
  induction n generalizing s with
  | zero => simp [fgetsRead]
  | succ n ih =>
    cases s with
    | nil => simp [fgetsRead]
    | cons b s =>
      by_cases h : b = LF
      · simp [fgetsRead, h]
      · simp [fgetsRead, h, ih]

theorem fgetsRead_length_le (n : Nat) (s : List Byte) : (fgetsRead n s).1.length ≤ n := by
  induction n generalizing s with
  | zero => simp [fgetsRead]
  | succ n ih =>
    cases s with
    | nil => simp [fgetsRead]
    | cons b s =>
      by_cases h : b = LF
      · simp [fgetsRead, h]
      · simp [fgetsRead, h, ih]

theorem fgetsRead_rest_lt (n : Nat) (b : Byte) (s : List Byte) :
    (fgetsRead (n + 1) (b :: s)).2.length < (b :: s).length := by
  have h := congrArg List.length (fgetsRead_append (n + 1) (b :: s))
  have h1 : 0 < (fgetsRead (n + 1) (b :: s)).1.length := by
    by_cases hb : b = LF <;> simp [fgetsRead, hb]
  rw [List.length_append] at h
  omega

theorem fgetsRead_exact (s t : List Byte) (hs : ∀ b ∈ s, b ≠ LF) :
    fgetsRead s.length (s ++ t) = (s, t) := by
  induction s with
  | nil => simp [fgetsRead]
  | cons b s ih =>
    have hb : b ≠ LF := hs b (List.mem_cons_self b s)
    have hr : ∀ x ∈ s, x ≠ LF := fun x hx => hs x (List.mem_cons_of_mem b hx)
    simp [fgetsRead, hb, ih hr]

theorem fgetsRead_line (n : Nat) (s : List Byte) (h : (firstLine s).length ≤ n) :
    fgetsRead n s = (firstLine s, afterFirstLine s) := by
  induction s generalizing n with
  | nil => cases n <;> simp [fgetsRead, firstLine, afterFirstLine]
  | cons b s ih =>
    by_cases hb : b = LF
    · subst hb
      cases n with
      | zero => simp [firstLine] at h
      | succ n => simp [fgetsRead, firstLine, afterFirstLine]
    · cases n with
      | zero => simp [firstLine, hb] at h
      | succ n =>
        have h1 : (firstLine s).length ≤ n := by
          simp [firstLine, hb] at h
          simp [firstLine]
          omega
        have := ih n h1
        simp [fgetsRead, hb, this]
        simp [firstLine, afterFirstLine, hb]

/-! ### One pass of the loop -/

theorem fgets_fill (B : Nat) (hB : 2 ≤ B) (stream : FILE) (hne : stream.unread ≠ []) :
    fgets B stream =
      some ((fgetsRead (B - 1) stream.unread).1 ++ [NUL],
            { stream with unread := (fgetsRead (B - 1) stream.unread).2 }) := by
  unfold fgets
  have h0 : B ≠ 0 := by omega
  have h1 : B ≠ 1 := by omega
  simp [h0, h1, hne]

theorem fgets_eof (B : Nat) (hB : 2 ≤ B) (stream : FILE) (he : stream.unread = []) :
    fgets B stream = none := by
  unfold fgets
  have h0 : B ≠ 0 := by omega
  have h1 : B ≠ 1 := by omega
  simp [h0, h1, he]

theorem NewtFgetsStore_ok (mem : ObjMem) (hm : mem.AllocOK) (result : newtRef)
    (hr : result = newtRef.NIL ∨ NewtRefIsString result = true)
    (str : List Byte) (len : Nat) (hlen : len ≤ str.length) :
    NewtFgetsStore mem result str len =
      some (newtRef.String (accText result ++ str.take len)) := by
  unfold NewtFgetsStore
  rcases hr with hr | hr
  · subst hr
    simp [NewtMakeString2, hm len, NewtRefIsNIL, accText]
  · cases result with
    | String a =>
      simp [NewtStrCat2, hm (a.length + len), NewtStringLength, accText,
        Nat.min_eq_left hlen]
    | NIL => simp [NewtRefIsString] at hr
    | Unbind => simp [NewtRefIsString] at hr
    | Integer n => simp [NewtRefIsString] at hr
    | Throw e => simp [NewtRefIsString] at hr
    | Character c => simp [NewtRefIsString] at hr
    | ThrowValue e v => simp [NewtRefIsString] at hr

/-- With a buffer of at least two bytes and allocation succeeding, a pass
over a source that is not at end-of-input stores the C string of the fill and
goes on to the tests after the fill. -/
theorem NewtFgetsBody_fill (B : Nat) (hB : 2 ≤ B) (sg : Bool) (mem : ObjMem)
    (hm : mem.AllocOK) (st : FgetsState)
    (hr : st.result = newtRef.NIL ∨ NewtRefIsString st.result = true)
    (hne : st.stream.unread ≠ []) :
    NewtFgetsBody B sg mem st =
      NewtFgetsCheck (B - 1) sg ((fgetsRead (B - 1) st.stream.unread).1 ++ [NUL])
        (cstr (fgetsRead (B - 1) st.stream.unread).1).length
        (newtRef.String (accText st.result ++ cstr (fgetsRead (B - 1) st.stream.unread).1))
        { st.stream with unread := (fgetsRead (B - 1) st.stream.unread).2 }
        (st.fills + 1) := by
  unfold NewtFgetsBody
  rw [fgets_fill B hB st.stream hne]
  have hlen : strlen ((fgetsRead (B - 1) st.stream.unread).1 ++ [NUL]) ≤
      ((fgetsRead (B - 1) st.stream.unread).1 ++ [NUL]).length := cstr_length_le _
  have hs := NewtFgetsStore_ok mem hm st.result hr _ _ hlen
  rw [take_strlen_buff] at hs
  simp only [hs]
  rw [strlen_buff]

theorem NewtFgetsBody_eof (B : Nat) (hB : 2 ≤ B) (sg : Bool) (mem : ObjMem)
    (st : FgetsState) (he : st.stream.unread = []) :
    NewtFgetsBody B sg mem st = some (FgetsStep.ret st) := by
  unfold NewtFgetsBody
  rw [fgets_eof B hB st.stream he]

theorem NewtFgetsCheck_short (maxsize : Nat) (sg : Bool) (buff : List Byte) (len : Nat)
    (result : newtRef) (stream : FILE) (fills : Nat) (h : len < maxsize) :
    NewtFgetsCheck maxsize sg buff len result stream fills =
      some (FgetsStep.ret ⟨result, stream, fills⟩) := by
  simp [NewtFgetsCheck, h]

theorem getD_last_of_buff (s : List Byte) (c : Byte) :
    (s ++ [c] ++ [NUL]).getD (s.length + 1 - 1) NUL = c := by
  have h : s.length + 1 - 1 = s.length := by omega
  rw [h, List.append_assoc, List.getD_eq_getElem?_getD,
    List.getElem?_append_right (Nat.le_refl _)]
  simp

/-- A fill that ends in LF ends the call, whether or not it fills the buffer. -/
theorem NewtFgetsCheck_LF (maxsize : Nat) (sg : Bool) (s : List Byte)
    (result : newtRef) (stream : FILE) (fills : Nat) (h : s.length + 1 ≤ maxsize) :
    NewtFgetsCheck maxsize sg (s ++ [LF] ++ [NUL]) (s.length + 1) result stream fills =
      some (FgetsStep.ret ⟨result, stream, fills⟩) := by
  by_cases hlt : s.length + 1 < maxsize
  · exact NewtFgetsCheck_short _ _ _ _ _ _ _ hlt
  · have he : maxsize = s.length + 1 := by omega
    subst he
    unfold NewtFgetsCheck
    rw [getD_last_of_buff]
    simp

/-- A fill that fills the buffer and ends in a byte other than LF and CR makes
the loop run again. -/
theorem NewtFgetsCheck_plain (sg : Bool) (s : List Byte) (c : Byte)
    (hLF : c ≠ LF) (hCR : c ≠ CR)
    (result : newtRef) (stream : FILE) (fills : Nat) :
    NewtFgetsCheck (s.length + 1) sg (s ++ [c] ++ [NUL]) (s.length + 1) result stream fills =
      some (FgetsStep.again ⟨result, stream, fills⟩) := by
  unfold NewtFgetsCheck
  rw [getD_last_of_buff]
  simp [hLF, hCR]

/-- A fill that fills the buffer and ends in CR reads one byte ahead. -/
theorem NewtFgetsCheck_CR (sg : Bool) (s : List Byte)
    (result : newtRef) (stream : FILE) (fills : Nat) :
    NewtFgetsCheck (s.length + 1) sg (s ++ [CR] ++ [NUL]) (s.length + 1) result stream fills =
      if toChar sg (fgetc stream).1 ≠ 10 then
        some (FgetsStep.ret ⟨result, ungetc (toChar sg (fgetc stream).1) (fgetc stream).2, fills⟩)
      else some (FgetsStep.again ⟨result, (fgetc stream).2, fills⟩) := by
  have h : CR ≠ LF := by decide
  unfold NewtFgetsCheck
  rw [getD_last_of_buff]
  simp [h]

theorem fgetsRead_upto_LF (n : Nat) (s t : List Byte) (hs : ∀ b ∈ s, b ≠ LF)
    (hn : s.length < n) : fgetsRead n (s ++ LF :: t) = (s ++ [LF], t) := by
  induction s generalizing n with
  | nil =>
    cases n with
    | zero => omega
    | succ n => simp [fgetsRead]
  | cons b s ih =>
    have hb : b ≠ LF := hs b (List.mem_cons_self b s)
    have hr : ∀ x ∈ s, x ≠ LF := fun x hx => hs x (List.mem_cons_of_mem b hx)
    cases n with
    | zero => omega
    | succ n =>
      have hn1 : s.length < n := by simpa using hn
      simp [fgetsRead, hb, ih n hr hn1]

/-- A pass whose fill is `u ++ [c]`, free of LF and NUL and exactly as long as
the buffer allows. -/
theorem NewtFgetsBody_full (sg : Bool) (mem : ObjMem) (hm : mem.AllocOK) (st : FgetsState)
    (hr : st.result = newtRef.NIL ∨ NewtRefIsString st.result = true)
    (u : List Byte) (c : Byte) (rest : List Byte)
    (hu : ∀ b ∈ u, b ≠ LF ∧ b ≠ NUL) (hc : c ≠ LF ∧ c ≠ NUL)
    (hs : st.stream.unread = u ++ c :: rest) :
    NewtFgetsBody (u.length + 2) sg mem st =
      NewtFgetsCheck (u.length + 1) sg (u ++ [c] ++ [NUL]) (u.length + 1)
        (newtRef.String (accText st.result ++ (u ++ [c])))
        { st.stream with unread := rest } (st.fills + 1) := by
  have hne : st.stream.unread ≠ [] := by rw [hs]; simp
  have hLF : ∀ b ∈ u ++ [c], b ≠ LF := by
    intro b hb
    rcases List.mem_append.mp hb with h | h
    · exact (hu b h).1
    · rw [List.mem_singleton.mp h]; exact hc.1
  have hNUL : ∀ b ∈ u ++ [c], b ≠ NUL := by
    intro b hb
    rcases List.mem_append.mp hb with h | h
    · exact (hu b h).2
    · rw [List.mem_singleton.mp h]; exact hc.2
  have hread : fgetsRead (u.length + 2 - 1) st.stream.unread = (u ++ [c], rest) := by
    have h := fgetsRead_exact (u ++ [c]) rest hLF
    have e1 : (u ++ [c]).length = u.length + 2 - 1 := by simp
    have e2 : u ++ [c] ++ rest = u ++ c :: rest := by simp
    rw [e1, e2] at h
    rw [hs]
    exact h
  rw [NewtFgetsBody_fill (u.length + 2) (by omega) sg mem hm st hr hne]
  simp only [hread, cstr_of_noNul _ hNUL]
  have e3 : u.length + 2 - 1 = u.length + 1 := by omega
  have e4 : (u ++ [c]).length = u.length + 1 := by simp
  rw [e3, e4]

/-- A pass whose fill reaches a line feed: the call ends with that line. -/
theorem NewtFgetsBody_LF (B : Nat) (sg : Bool) (mem : ObjMem) (hm : mem.AllocOK)
    (st : FgetsState)
    (hr : st.result = newtRef.NIL ∨ NewtRefIsString st.result = true)
    (s t : List Byte) (hs : ∀ b ∈ s, b ≠ LF ∧ b ≠ NUL) (hlen : s.length + 1 ≤ B - 1)
    (hin : st.stream.unread = s ++ LF :: t) :
    NewtFgetsBody B sg mem st =
      some (FgetsStep.ret ⟨newtRef.String (accText st.result ++ (s ++ [LF])),
        { st.stream with unread := t }, st.fills + 1⟩) := by
  have hne : st.stream.unread ≠ [] := by rw [hin]; simp
  have hNUL : ∀ b ∈ s ++ [LF], b ≠ NUL := by
    intro b hb
    rcases List.mem_append.mp hb with h | h
    · exact (hs b h).2
    · rw [List.mem_singleton.mp h]; decide
  have hread : fgetsRead (B - 1) st.stream.unread = (s ++ [LF], t) := by
    rw [hin]
    exact fgetsRead_upto_LF (B - 1) s t (fun b hb => (hs b hb).1) (by omega)
  rw [NewtFgetsBody_fill B (by omega) sg mem hm st hr hne]
  simp only [hread, cstr_of_noNul _ hNUL]
  have e4 : (s ++ [LF]).length = s.length + 1 := by simp
  rw [e4]
  exact NewtFgetsCheck_LF (B - 1) sg s _ _ _ hlen

/-! ### Lines -/

theorem firstLine_append_after (s : List Byte) : firstLine s ++ afterFirstLine s = s := by
  unfold firstLine afterFirstLine
  rw [List.append_assoc, List.take_append_drop, List.takeWhile_append_dropWhile]

theorem mem_of_mem_firstLine (s : List Byte) (b : Byte) (h : b ∈ firstLine s) : b ∈ s := by
  rw [← firstLine_append_after s]
  exact List.mem_append_left _ h

theorem firstLine_append_of_noLF (s t : List Byte) (hs : ∀ b ∈ s, b ≠ LF) :
    firstLine (s ++ t) = s ++ firstLine t := by
  induction s with
  | nil => rfl
  | cons b s ih =>
    have hb : b ≠ LF := hs b (List.mem_cons_self b s)
    have hr : ∀ x ∈ s, x ≠ LF := fun x hx => hs x (List.mem_cons_of_mem b hx)
    have := ih hr
    simp [firstLine, hb] at this ⊢
    exact this

theorem afterFirstLine_append_of_noLF (s t : List Byte) (hs : ∀ b ∈ s, b ≠ LF) :
    afterFirstLine (s ++ t) = afterFirstLine t := by
  induction s with
  | nil => rfl
  | cons b s ih =>
    have hb : b ≠ LF := hs b (List.mem_cons_self b s)
    have hr : ∀ x ∈ s, x ≠ LF := fun x hx => hs x (List.mem_cons_of_mem b hx)
    have := ih hr
    simp [afterFirstLine, hb] at this ⊢
    exact this

/-! ### Calls that end with the first fill -/

theorem NewtFgetsLoop_ret (B : Nat) (sg : Bool) (mem : ObjMem) (fuel : Nat)
    (st st1 : FgetsState) (h : NewtFgetsBody B sg mem st = some (FgetsStep.ret st1)) :
    NewtFgetsLoop B sg mem (fuel + 1) st = some st1 := by
  simp [NewtFgetsLoop, h]

theorem NewtFgetsLoop_again (B : Nat) (sg : Bool) (mem : ObjMem) (fuel : Nat)
    (st st1 : FgetsState) (h : NewtFgetsBody B sg mem st = some (FgetsStep.again st1)) :
    NewtFgetsLoop B sg mem (fuel + 1) st = NewtFgetsLoop B sg mem fuel st1 := by
  simp [NewtFgetsLoop, h]

/-- A first line without NUL that does not fill the buffer is returned by the
first fill. -/
theorem NewtFgets_one_fill (B : Nat) (sg : Bool) (mem : ObjMem) (hm : mem.AllocOK)
    (f : FILE) (hnul : ∀ b ∈ firstLine f.unread, b ≠ NUL)
    (hne : firstLine f.unread ≠ []) (hlt : (firstLine f.unread).length < B - 1) :
    NewtFgets B sg mem f =
      some ⟨newtRef.String (firstLine f.unread),
            { f with unread := afterFirstLine f.unread }, 1⟩ := by
  have hB : 2 ≤ B := by omega
  have hu : f.unread ≠ [] := by
    intro h
    rw [h] at hne
    exact hne rfl
  unfold NewtFgets
  apply NewtFgetsLoop_ret
  rw [NewtFgetsBody_fill B hB sg mem hm _ (Or.inl rfl) hu]
  simp only [fgetsRead_line (B - 1) f.unread (Nat.le_of_lt hlt), cstr_of_noNul _ hnul]
  rw [NewtFgetsCheck_short _ _ _ _ _ _ _ hlt]
  simp [accText]

/-- C1. For every buffer size and every source whose unread bytes contain no
NUL and whose first line (up to and including the first LF, or everything when
there is no LF) is non-empty and shorter than `NEWT_FGETS_BUFFSIZE - 1`,
`NewtFgets` returns a string equal to exactly that line and leaves exactly the
bytes after it unread, having filled the buffer once. -/
theorem C1_first_line_returned (NEWT_FGETS_BUFFSIZE : Nat) (charSigned : Bool)
    (mem : ObjMem) (hm : mem.AllocOK) (stream : FILE)
    (hnul : ∀ b ∈ stream.unread, b ≠ NUL)
    (hne : firstLine stream.unread ≠ [])
    (hlt : (firstLine stream.unread).length < NEWT_FGETS_BUFFSIZE - 1) :
    NewtFgets NEWT_FGETS_BUFFSIZE charSigned mem stream =
      some ⟨newtRef.String (firstLine stream.unread),
            { stream with unread := afterFirstLine stream.unread }, 1⟩ :=
  NewtFgets_one_fill NEWT_FGETS_BUFFSIZE charSigned mem hm stream
    (fun b hb => hnul b (mem_of_mem_firstLine _ b hb)) hne hlt

/-- C1 at the two inputs of the specification, with a buffer of 16 bytes:
"abc\n" yields "abc\n" and "abc\r\n" yields "abc\r\n", nothing left. -/
theorem C1_first_line_returned_witness :
    NewtFgets 16 true ObjMem.unbounded (FILE.ofBytes [97, 98, 99, 10]) =
        some ⟨newtRef.String [97, 98, 99, 10], FILE.ofBytes [], 1⟩ ∧
    NewtFgets 16 true ObjMem.unbounded (FILE.ofBytes [97, 98, 99, 13, 10]) =
        some ⟨newtRef.String [97, 98, 99, 13, 10], FILE.ofBytes [], 1⟩ :=
  ⟨C1_first_line_returned 16 true ObjMem.unbounded (fun _ => rfl)
      (FILE.ofBytes [97, 98, 99, 10]) (by simp [FILE.ofBytes]; decide) (by decide) (by decide),
   C1_first_line_returned 16 true ObjMem.unbounded (fun _ => rfl)
      (FILE.ofBytes [97, 98, 99, 13, 10]) (by simp [FILE.ofBytes]; decide) (by decide) (by decide)⟩

/-! ### The lookahead after a CR at the end of a full buffer -/

theorem toChar_byte_ne_LF (sg : Bool) (b : Byte) (hb : b ≠ LF) :
    toChar sg (b.val : Int) ≠ 10 := by
  have h1 : b.val < 256 := b.isLt
  have h2 : b.val ≠ 10 := fun h => hb (Fin.ext h)
  unfold toChar
  cases sg <;> simp <;> omega

theorem toUChar_toChar_byte (sg : Bool) (b : Byte) : toUChar (toChar sg (b.val : Int)) = b := by
  have h1 : b.val < 256 := b.isLt
  apply Fin.ext
  unfold toUChar toChar
  cases sg <;> simp [Fin.ofNat] <;> omega

theorem toChar_byte_ne_EOF (sg : Bool) (b : Byte) (h : sg = true → b ≠ 255) :
    toChar sg (b.val : Int) ≠ EOF := by
  have h1 : b.val < 256 := b.isLt
  have hE : EOF = -1 := rfl
  rw [hE]
  unfold toChar
  cases sg
  · simp; omega
  · have h2 : b.val ≠ 255 := fun e => h rfl (Fin.ext e)
    simp; omega

/-- The byte read ahead comes back to the source when it is not LF and, where
`char` is signed, not 0xFF. -/
theorem lookahead_pushed_back (sg : Bool) (b : Byte) (hb : b ≠ LF)
    (h255 : sg = true → b ≠ 255) (stream : FILE) (tl : List Byte)
    (hs : stream.unread = b :: tl) :
    toChar sg (fgetc stream).1 ≠ 10 ∧
      ungetc (toChar sg (fgetc stream).1) (fgetc stream).2 = stream := by
  have hf : fgetc stream = ((b.val : Int), { stream with unread := tl }) := by
    unfold fgetc; rw [hs]
  rw [hf]
  refine ⟨toChar_byte_ne_LF sg b hb, ?_⟩
  unfold ungetc
  rw [if_neg (toChar_byte_ne_EOF sg b h255), toUChar_toChar_byte]
  cases stream
  simp at hs
  simp [hs]

/-- A full fill of bytes that are neither CR, LF nor NUL: the loop stores it
and runs again on what follows. -/
theorem NewtFgetsLoop_full_plain (sg : Bool) (mem : ObjMem) (hm : mem.AllocOK)
    (fuel : Nat) (st : FgetsState)
    (hr : st.result = newtRef.NIL ∨ NewtRefIsString st.result = true)
    (u : List Byte) (c : Byte) (rest : List Byte)
    (hu : ∀ b ∈ u, b ≠ LF ∧ b ≠ NUL) (hc : c ≠ CR ∧ c ≠ LF ∧ c ≠ NUL)
    (hs : st.stream.unread = u ++ c :: rest) :
    NewtFgetsLoop (u.length + 2) sg mem (fuel + 1) st =
      NewtFgetsLoop (u.length + 2) sg mem fuel
        ⟨newtRef.String (accText st.result ++ (u ++ [c])),
         { st.stream with unread := rest }, st.fills + 1⟩ := by
  apply NewtFgetsLoop_again
  rw [NewtFgetsBody_full sg mem hm st hr u c rest hu ⟨hc.2.1, hc.2.2⟩ hs]
  exact NewtFgetsCheck_plain sg u c hc.2.1 hc.1 _ _ _

/-- A full fill that ends in CR, followed by a byte that is pushed back: the
call ends with the CR and the source is at that byte. -/
theorem NewtFgetsLoop_full_CR (sg : Bool) (mem : ObjMem) (hm : mem.AllocOK)
    (fuel : Nat) (st : FgetsState)
    (hr : st.result = newtRef.NIL ∨ NewtRefIsString st.result = true)
    (u : List Byte) (b0 : Byte) (tl : List Byte)
    (hu : ∀ b ∈ u, b ≠ LF ∧ b ≠ NUL) (hb0 : b0 ≠ LF) (h255 : sg = true → b0 ≠ 255)
    (hs : st.stream.unread = u ++ CR :: b0 :: tl) :
    NewtFgetsLoop (u.length + 2) sg mem (fuel + 1) st =
      some ⟨newtRef.String (accText st.result ++ (u ++ [CR])),
            { st.stream with unread := b0 :: tl }, st.fills + 1⟩ := by
  apply NewtFgetsLoop_ret
  rw [NewtFgetsBody_full sg mem hm st hr u CR (b0 :: tl) hu ⟨by decide, by decide⟩ hs,
    NewtFgetsCheck_CR]
  have hp := lookahead_pushed_back sg b0 hb0 h255 { st.stream with unread := b0 :: tl } tl rfl
  rw [if_pos hp.1, hp.2]

/-- A full fill that ends in CR, followed by LF: the LF is taken from the
source, it is not stored, and the loop runs again. -/
theorem NewtFgetsLoop_full_CRLF (sg : Bool) (mem : ObjMem) (hm : mem.AllocOK)
    (fuel : Nat) (st : FgetsState)
    (hr : st.result = newtRef.NIL ∨ NewtRefIsString st.result = true)
    (u : List Byte) (t : List Byte) (hu : ∀ b ∈ u, b ≠ LF ∧ b ≠ NUL)
    (hs : st.stream.unread = u ++ CR :: LF :: t) :
    NewtFgetsLoop (u.length + 2) sg mem (fuel + 1) st =
      NewtFgetsLoop (u.length + 2) sg mem fuel
        ⟨newtRef.String (accText st.result ++ (u ++ [CR])),
         { st.stream with unread := t }, st.fills + 1⟩ := by
  apply NewtFgetsLoop_again
  rw [NewtFgetsBody_full sg mem hm st hr u CR (LF :: t) hu ⟨by decide, by decide⟩ hs,
    NewtFgetsCheck_CR]
  have hf : fgetc { st.stream with unread := LF :: t } =
      ((10 : Int), { st.stream with unread := t }) := rfl
  have h10 : toChar sg 10 = 10 := by cases sg <;> rfl
  rw [hf]
  simp [h10]

/-- A full fill that ends in CR, followed by the byte 0xFF, where `char` is
signed: the byte read ahead is not pushed back. -/
theorem NewtFgetsLoop_full_CR_signed_FF (mem : ObjMem) (hm : mem.AllocOK)
    (fuel : Nat) (st : FgetsState)
    (hr : st.result = newtRef.NIL ∨ NewtRefIsString st.result = true)
    (u : List Byte) (tl : List Byte) (hu : ∀ b ∈ u, b ≠ LF ∧ b ≠ NUL)
    (hs : st.stream.unread = u ++ CR :: 255 :: tl) :
    NewtFgetsLoop (u.length + 2) true mem (fuel + 1) st =
      some ⟨newtRef.String (accText st.result ++ (u ++ [CR])),
            { st.stream with unread := tl }, st.fills + 1⟩ := by
  apply NewtFgetsLoop_ret
  rw [NewtFgetsBody_full true mem hm st hr u CR (255 :: tl) hu ⟨by decide, by decide⟩ hs,
    NewtFgetsCheck_CR]
  have hf : fgetc { st.stream with unread := (255 : Byte) :: tl } =
      ((255 : Int), { st.stream with unread := tl }) := rfl
  have hc : toChar true 255 = -1 := by decide
  rw [hf]
  simp [hc, ungetc]

/-- A full fill that ends in CR at end-of-input, where `char` is unsigned: a
byte 0xFF is pushed onto the source. -/
theorem NewtFgetsLoop_full_CR_unsigned_EOF (mem : ObjMem) (hm : mem.AllocOK)
    (fuel : Nat) (st : FgetsState)
    (hr : st.result = newtRef.NIL ∨ NewtRefIsString st.result = true)
    (u : List Byte) (hu : ∀ b ∈ u, b ≠ LF ∧ b ≠ NUL)
    (hs : st.stream.unread = u ++ [CR]) :
    NewtFgetsLoop (u.length + 2) false mem (fuel + 1) st =
      some ⟨newtRef.String (accText st.result ++ (u ++ [CR])),
            { st.stream with unread := [255] }, st.fills + 1⟩ := by
  apply NewtFgetsLoop_ret
  rw [NewtFgetsBody_full false mem hm st hr u CR [] hu ⟨by decide, by decide⟩ hs,
    NewtFgetsCheck_CR]
  have hf : fgetc { st.stream with unread := ([] : List Byte) } =
      (EOF, { st.stream with unread := [] }) := rfl
  have hc : toChar false EOF = 255 := by decide
  have hu255 : toUChar 255 = 255 := by decide
  have hne : (255 : Int) ≠ EOF := by decide
  rw [hf]
  simp [hc, ungetc, hu255, hne]

theorem exists_split_at (s : List Byte) (m : Nat) (h : m < s.length) :
    ∃ u c s2, s = u ++ c :: s2 ∧ u.length = m := by
  induction m generalizing s with
  | zero =>
    cases s with
    | nil => simp at h
    | cons a s1 => exact ⟨[], a, s1, rfl, rfl⟩
  | succ m ih =>
    cases s with
    | nil => simp at h
    | cons a s1 =>
      obtain ⟨u, c, s2, h1, h2⟩ := ih s1 (by simpa using h)
      exact ⟨a :: u, c, s2, by rw [h1]; rfl, by simp [h2]⟩

/-- A CR that is the last byte of the `(k+1)`-th completely filled buffer,
after plain bytes only, followed by a byte that is pushed back. -/
theorem NewtFgetsLoop_CR_boundary (sg : Bool) (mem : ObjMem) (hm : mem.AllocOK)
    (m : Nat) (b0 : Byte) (tl : List Byte) (hb0 : b0 ≠ LF) (h255 : sg = true → b0 ≠ 255)
    (k : Nat) :
    ∀ (s : List Byte) (st : FgetsState) (fuel : Nat),
      (st.result = newtRef.NIL ∨ NewtRefIsString st.result = true) →
      s.length + 1 = (k + 1) * (m + 1) →
      (∀ b ∈ s, b ≠ CR ∧ b ≠ LF ∧ b ≠ NUL) →
      st.stream.unread = s ++ CR :: b0 :: tl →
      k < fuel →
      NewtFgetsLoop (m + 2) sg mem fuel st =
        some ⟨newtRef.String (accText st.result ++ (s ++ [CR])),
              { st.stream with unread := b0 :: tl }, st.fills + (k + 1)⟩ := by
  induction k with
  | zero =>
    intro s st fuel hr hlen hs hin hfuel
    obtain ⟨fuel1, rfl⟩ : ∃ f1, fuel = f1 + 1 := ⟨fuel - 1, by omega⟩
    have hm1 : m = s.length := by simp at hlen; omega
    subst hm1
    exact NewtFgetsLoop_full_CR sg mem hm fuel1 st hr s b0 tl
      (fun b hb => ⟨(hs b hb).2.1, (hs b hb).2.2⟩) hb0 h255 hin
  | succ k ih =>
    intro s st fuel hr hlen hs hin hfuel
    obtain ⟨fuel1, rfl⟩ : ∃ f1, fuel = f1 + 1 := ⟨fuel - 1, by omega⟩
    have hexp : (k + 1 + 1) * (m + 1) = (k + 1) * (m + 1) + (m + 1) := by ring
    have hlong : m < s.length := by
      have h2 : 1 ≤ (k + 1) * (m + 1) := Nat.mul_pos (by omega) (by omega)
      omega
    obtain ⟨u, c, s2, hsplit, hlenu⟩ := exists_split_at s m hlong
    subst hsplit
    subst hlenu
    have hu : ∀ b ∈ u, b ≠ LF ∧ b ≠ NUL := fun b hb =>
      ⟨(hs b (List.mem_append_left _ hb)).2.1, (hs b (List.mem_append_left _ hb)).2.2⟩
    have hc := hs c (List.mem_append_right _ (List.mem_cons_self c s2))
    have hs2 : ∀ b ∈ s2, b ≠ CR ∧ b ≠ LF ∧ b ≠ NUL := fun b hb =>
      hs b (List.mem_append_right _ (List.mem_cons_of_mem c hb))
    have hin1 : st.stream.unread = u ++ c :: (s2 ++ CR :: b0 :: tl) := by
      rw [hin]; simp
    rw [NewtFgetsLoop_full_plain sg mem hm fuel1 st hr u c (s2 ++ CR :: b0 :: tl) hu hc hin1]
    have hlen2 : s2.length + 1 = (k + 1) * (u.length + 1) := by
      simp at hlen
      omega
    rw [ih s2 ⟨newtRef.String (accText st.result ++ (u ++ [c])),
        { st.stream with unread := s2 ++ CR :: b0 :: tl }, st.fills + 1⟩
      fuel1 (Or.inr rfl) hlen2 hs2 rfl (by omega)]
    have hf : st.fills + 1 + (k + 1) = st.fills + (k + 1 + 1) := by omega
    simp [accText, hf]

/-! ### Lines that span fills -/

/-- C2. Buffer-boundary split: for every fill capacity `N` of at least one
byte (buffer size `N + 1`) and every input `s ++ "\n" ++ t` where `s` has
length exactly `N` and contains no CR, LF or NUL, `NewtFgets` performs at least
two fills and returns the single string `s ++ "\n"` of length `N + 1`,
leaving exactly `t` unread on the source. -/
theorem C2_boundary_split (N : Nat) (hN : 0 < N) (charSigned : Bool) (mem : ObjMem)
    (hm : mem.AllocOK) (stream : FILE) (s t : List Byte) (hlen : s.length = N)
    (hs : ∀ b ∈ s, b ≠ CR ∧ b ≠ LF ∧ b ≠ NUL)
    (hin : stream.unread = s ++ LF :: t) :
    ∃ out, NewtFgets (N + 1) charSigned mem stream = some out ∧
      2 ≤ out.fills ∧
      out.result = newtRef.String (s ++ [LF]) ∧
      (s ++ [LF]).length = N + 1 ∧
      out.stream = { stream with unread := t } := by
  rcases List.eq_nil_or_concat s with hnil | ⟨u, c, hsu⟩
  · rw [hnil] at hlen
    simp at hlen
    omega
  rw [List.concat_eq_append] at hsu
  subst hsu
  have hu : ∀ b ∈ u, b ≠ LF ∧ b ≠ NUL := fun b hb =>
    ⟨(hs b (List.mem_append_left _ hb)).2.1, (hs b (List.mem_append_left _ hb)).2.2⟩
  have hc := hs c (List.mem_append_right _ (List.mem_singleton_self c))
  have hN1 : N = u.length + 1 := by simpa using hlen.symm
  subst hN1
  have hin1 : stream.unread = u ++ c :: (LF :: t) := by rw [hin]; simp
  have hfuel : stream.unread.length + 1 = (t.length + 1) + 1 + (u.length + 1) := by
    rw [hin1]; simp; omega
  refine ⟨⟨newtRef.String (u ++ [c] ++ [LF]), { stream with unread := t }, 2⟩, ?_, ?_, ?_, ?_, ?_⟩
  · unfold NewtFgets
    rw [hfuel]
    have hb1 := NewtFgetsBody_full charSigned mem hm ⟨newtRef.NIL, stream, 0⟩ (Or.inl rfl)
      u c (LF :: t) hu ⟨hc.2.1, hc.2.2⟩ hin1
    rw [NewtFgetsCheck_plain charSigned u c hc.2.1 hc.1] at hb1
    have e : (t.length + 1) + 1 + (u.length + 1) = ((t.length + 1) + (u.length + 1)) + 1 := by
      omega
    rw [e, NewtFgetsLoop_again _ _ _ _ _ _ hb1]
    have e2 : (t.length + 1) + (u.length + 1) = (t.length + u.length + 1) + 1 := by omega
    rw [e2]
    apply NewtFgetsLoop_ret
    have hb2 := NewtFgetsBody_LF (u.length + 1 + 1) charSigned mem hm
      ⟨newtRef.String (accText newtRef.NIL ++ (u ++ [c])), { stream with unread := LF :: t }, 0 + 1⟩
      (Or.inr rfl) [] t (by simp) (by simp) rfl
    rw [hb2]
    simp [accText]
  · exact Nat.le_refl 2
  · rfl
  · simp
  · rfl

/-- C2 with a fill capacity of 3: "abc" ++ "\n" ++ "XY" is read in two fills
as "abc\n" and "XY" stays on the source. -/
theorem C2_boundary_split_witness :
    ∃ out, NewtFgets (3 + 1) true ObjMem.unbounded (FILE.ofBytes [97, 98, 99, 10, 88, 89]) =
        some out ∧
      2 ≤ out.fills ∧
      out.result = newtRef.String ([97, 98, 99] ++ [LF]) ∧
      ([97, 98, 99] ++ [LF] : List Byte).length = 3 + 1 ∧
      out.stream = { FILE.ofBytes [97, 98, 99, 10, 88, 89] with unread := [88, 89] } :=
  C2_boundary_split 3 (by decide) true ObjMem.unbounded (fun _ => rfl)
    (FILE.ofBytes [97, 98, 99, 10, 88, 89]) [97, 98, 99] [88, 89] rfl
    (by simp; decide) rfl

/-! ### Carriage returns -/

/-- C3, evaluated where the code departs from it. Let the fill capacity be
`|s| + 1`, so that in `s ++ "\r\n" ++ line ++ "\n" ++ t` the CR is the last
byte of a completely filled buffer, `s` being free of CR, LF and NUL and
`line` a further line no longer than `s`. `NewtFgets` takes the LF from the
source without storing it and does not leave the loop: it returns
`s ++ "\r" ++ line ++ "\n"` after two fills and leaves `t`, where C3 states
that it returns `s ++ "\r\n"` and leaves `line ++ "\n" ++ t`. -/
theorem C3_crlf_across_fill_boundary (charSigned : Bool) (mem : ObjMem) (hm : mem.AllocOK)
    (stream : FILE) (s line t : List Byte)
    (hs : ∀ b ∈ s, b ≠ CR ∧ b ≠ LF ∧ b ≠ NUL)
    (hline : ∀ b ∈ line, b ≠ LF ∧ b ≠ NUL) (hlen : line.length ≤ s.length)
    (hin : stream.unread = s ++ CR :: LF :: (line ++ LF :: t)) :
    NewtFgets (s.length + 2) charSigned mem stream =
      some ⟨newtRef.String (s ++ [CR] ++ line ++ [LF]), { stream with unread := t }, 2⟩ := by
  have hfuel : stream.unread.length + 1 = (s.length + line.length + t.length + 2) + 1 + 1 := by
    rw [hin]; simp; omega
  unfold NewtFgets
  rw [hfuel, NewtFgetsLoop_full_CRLF charSigned mem hm _ ⟨newtRef.NIL, stream, 0⟩ (Or.inl rfl)
    s (line ++ LF :: t) (fun b hb => ⟨(hs b hb).2.1, (hs b hb).2.2⟩) hin]
  apply NewtFgetsLoop_ret
  rw [NewtFgetsBody_LF (s.length + 2) charSigned mem hm
    ⟨newtRef.String (accText newtRef.NIL ++ (s ++ [CR])),
      { stream with unread := line ++ LF :: t }, 0 + 1⟩
    (Or.inr rfl) line t hline (by simp; omega) rfl]
  simp [accText]

/-- C3 at "abc\r\nXYZ\n" with a buffer of 5 bytes: the call returns
"abc\rXYZ\n" and leaves nothing, instead of "abc\r\n" leaving "XYZ\n". -/
theorem C3_crlf_across_fill_boundary_witness :
    NewtFgets 5 true ObjMem.unbounded (FILE.ofBytes [97, 98, 99, 13, 10, 88, 89, 90, 10]) =
      some ⟨newtRef.String [97, 98, 99, 13, 88, 89, 90, 10], FILE.ofBytes [], 2⟩ :=
  C3_crlf_across_fill_boundary true ObjMem.unbounded (fun _ => rfl)
    (FILE.ofBytes [97, 98, 99, 13, 10, 88, 89, 90, 10]) [97, 98, 99] [88, 89, 90] []
    (by simp; decide) (by simp; decide) (by decide) rfl

/-- C4 fails as stated: with a buffer of 16 bytes "abc\rXYZ" is not split at
the CR; no result of the call is "abc\r" with "XYZ" left unread. -/
theorem C4_lone_CR_counterexample :
    ¬ ∃ out, NewtFgets 16 true ObjMem.unbounded
          (FILE.ofBytes [97, 98, 99, 13, 88, 89, 90]) = some out ∧
        out.result = newtRef.String [97, 98, 99, 13] ∧
        out.stream.unread = [88, 89, 90] := by
  rintro ⟨out, h, hr, -⟩
  have hv : NewtFgets 16 true ObjMem.unbounded (FILE.ofBytes [97, 98, 99, 13, 88, 89, 90]) =
      some ⟨newtRef.String [97, 98, 99, 13, 88, 89, 90], FILE.ofBytes [], 1⟩ := by decide
  rw [hv] at h
  injection h with h
  subst h
  simp at hr

/-- C4 as amended. For an input `s ++ "\r" ++ t` where `s` contains no CR, LF
or NUL and `t` starts with a byte `b0` other than LF:
when the CR is the last byte of a completely filled buffer (`|s| + 1` is
`k + 1` times the fill capacity) and `b0` is not 0xFF where `char` is signed,
`NewtFgets` returns `s ++ "\r"` after `k + 1` fills and leaves exactly `t`;
when instead the first line of the input, which runs on past the CR, is free
of NUL and shorter than the fill capacity, `NewtFgets` returns that whole
first line and leaves what follows it. -/
theorem C4_lone_CR_only_at_fill_boundary (NEWT_FGETS_BUFFSIZE : Nat) (charSigned : Bool)
    (mem : ObjMem) (hm : mem.AllocOK) (stream : FILE) (s : List Byte) (b0 : Byte)
    (tl : List Byte) (hs : ∀ b ∈ s, b ≠ CR ∧ b ≠ LF ∧ b ≠ NUL) (hb0 : b0 ≠ LF)
    (hin : stream.unread = s ++ CR :: b0 :: tl) :
    (∀ k, s.length + 1 = (k + 1) * (NEWT_FGETS_BUFFSIZE - 1) →
        (charSigned = true → b0 ≠ 255) →
        NewtFgets NEWT_FGETS_BUFFSIZE charSigned mem stream =
          some ⟨newtRef.String (s ++ [CR]), { stream with unread := b0 :: tl }, k + 1⟩) ∧
    ((∀ b ∈ firstLine (b0 :: tl), b ≠ NUL) →
        (s ++ CR :: firstLine (b0 :: tl)).length < NEWT_FGETS_BUFFSIZE - 1 →
        NewtFgets NEWT_FGETS_BUFFSIZE charSigned mem stream =
          some ⟨newtRef.String (s ++ CR :: firstLine (b0 :: tl)),
                { stream with unread := afterFirstLine (b0 :: tl) }, 1⟩) := by
  constructor
  · intro k hk h255
    have hB : 2 ≤ NEWT_FGETS_BUFFSIZE := by
      by_contra hcon
      have h0 : NEWT_FGETS_BUFFSIZE - 1 = 0 := by omega
      rw [h0] at hk
      simp at hk
    obtain ⟨m, rfl⟩ : ∃ m, NEWT_FGETS_BUFFSIZE = m + 2 := ⟨NEWT_FGETS_BUFFSIZE - 2, by omega⟩
    have hk1 : s.length + 1 = (k + 1) * (m + 1) := by
      have e : m + 2 - 1 = m + 1 := by omega
      rw [e] at hk
      exact hk
    have hge : k + 1 ≤ (k + 1) * (m + 1) := Nat.le_mul_of_pos_right _ (by omega)
    have hfuel : k < stream.unread.length + 1 := by
      rw [hin]; simp; omega
    unfold NewtFgets
    rw [NewtFgetsLoop_CR_boundary charSigned mem hm m b0 tl hb0 h255 k s
      ⟨newtRef.NIL, stream, 0⟩ _ (Or.inl rfl) hk1 hs hin hfuel]
    simp [accText]
  · intro hnul hlt
    have hLF : ∀ b ∈ s ++ [CR], b ≠ LF := by
      intro b hb
      rcases List.mem_append.mp hb with h | h
      · exact (hs b h).2.1
      · rw [List.mem_singleton.mp h]; decide
    have e1 : s ++ CR :: b0 :: tl = (s ++ [CR]) ++ (b0 :: tl) := by simp
    have hfl : firstLine stream.unread = s ++ CR :: firstLine (b0 :: tl) := by
      rw [hin, e1, firstLine_append_of_noLF _ _ hLF]; simp
    have hal : afterFirstLine stream.unread = afterFirstLine (b0 :: tl) := by
      rw [hin, e1, afterFirstLine_append_of_noLF _ _ hLF]
    have h := NewtFgets_one_fill NEWT_FGETS_BUFFSIZE charSigned mem hm stream
      (by
        intro b hb
        rw [hfl] at hb
        rcases List.mem_append.mp hb with h | h
        · exact (hs b h).2.2
        · rcases List.mem_cons.mp h with h | h
          · rw [h]; decide
          · exact hnul b h)
      (by rw [hfl]; simp)
      (by rw [hfl]; exact hlt)
    rw [hfl, hal] at h
    exact h

/-- C4 as amended at "abc\rXYZ": with a buffer of 5 bytes the CR ends the
first full fill, "abc\r" is returned and "XYZ" is left; with a buffer of 16
bytes the whole "abc\rXYZ" is returned. -/
theorem C4_lone_CR_only_at_fill_boundary_witness :
    NewtFgets 5 true ObjMem.unbounded (FILE.ofBytes [97, 98, 99, 13, 88, 89, 90]) =
        some ⟨newtRef.String [97, 98, 99, 13], FILE.ofBytes [88, 89, 90], 1⟩ ∧
    NewtFgets 16 true ObjMem.unbounded (FILE.ofBytes [97, 98, 99, 13, 88, 89, 90]) =
        some ⟨newtRef.String [97, 98, 99, 13, 88, 89, 90], FILE.ofBytes [], 1⟩ :=
  ⟨(C4_lone_CR_only_at_fill_boundary 5 true ObjMem.unbounded (fun _ => rfl)
      (FILE.ofBytes [97, 98, 99, 13, 88, 89, 90]) [97, 98, 99] 88 [89, 90]
      (by simp; decide) (by decide) rfl).1 0 (by decide) (by decide),
   (C4_lone_CR_only_at_fill_boundary 16 true ObjMem.unbounded (fun _ => rfl)
      (FILE.ofBytes [97, 98, 99, 13, 88, 89, 90]) [97, 98, 99] 88 [89, 90]
      (by simp; decide) (by decide) rfl).2
      (by
        have h : firstLine ((88 : Byte) :: [89, 90]) = [88, 89, 90] := by decide
        rw [h]
        simp
        decide)
      (by decide)⟩

/-- C5, evaluated where the code departs from it. Let the first fill
`s ++ "\r"` fill the buffer completely, `s` being free of LF and NUL. Where
`char` is signed and the next byte is 0xFF, that byte becomes -1 in `c`,
`ungetc(EOF)` does nothing and the byte is lost: the source is left at what
follows it. Where `char` is unsigned and the source is at end-of-input, the
lookahead becomes 255 in `c` and a byte 0xFF is added to the source. -/
theorem C5_lookahead_not_restored (mem : ObjMem) (hm : mem.AllocOK) (stream : FILE)
    (s tl : List Byte) (hs : ∀ b ∈ s, b ≠ LF ∧ b ≠ NUL) :
    (stream.unread = s ++ CR :: 255 :: tl →
      NewtFgets (s.length + 2) true mem stream =
        some ⟨newtRef.String (s ++ [CR]), { stream with unread := tl }, 1⟩) ∧
    (stream.unread = s ++ [CR] →
      NewtFgets (s.length + 2) false mem stream =
        some ⟨newtRef.String (s ++ [CR]), { stream with unread := [255] }, 1⟩) := by
  constructor
  · intro hin
    unfold NewtFgets
    rw [NewtFgetsLoop_full_CR_signed_FF mem hm _ ⟨newtRef.NIL, stream, 0⟩ (Or.inl rfl)
      s tl hs hin]
    simp [accText]
  · intro hin
    unfold NewtFgets
    rw [NewtFgetsLoop_full_CR_unsigned_EOF mem hm _ ⟨newtRef.NIL, stream, 0⟩ (Or.inl rfl)
      s hs hin]
    simp [accText]

/-- C5 with a buffer of 5 bytes: after "abc\r" the byte 0xFF is lost where
`char` is signed, and at end-of-input a byte 0xFF appears where it is
unsigned. -/
theorem C5_lookahead_not_restored_witness :
    NewtFgets 5 true ObjMem.unbounded (FILE.ofBytes [97, 98, 99, 13, 255, 90]) =
        some ⟨newtRef.String [97, 98, 99, 13], FILE.ofBytes [90], 1⟩ ∧
    NewtFgets 5 false ObjMem.unbounded (FILE.ofBytes [97, 98, 99, 13]) =
        some ⟨newtRef.String [97, 98, 99, 13], FILE.ofBytes [255], 1⟩ :=
  ⟨(C5_lookahead_not_restored ObjMem.unbounded (fun _ => rfl)
      (FILE.ofBytes [97, 98, 99, 13, 255, 90]) [97, 98, 99] [90] (by simp; decide)).1 rfl,
   (C5_lookahead_not_restored ObjMem.unbounded (fun _ => rfl)
      (FILE.ofBytes [97, 98, 99, 13]) [97, 98, 99] [] (by simp; decide)).2 rfl⟩

/-! ### Every call returns -/

theorem fgetsRead_rest_length_lt (n : Nat) (s : List Byte) (hn : 0 < n) (hs : s ≠ []) :
    (fgetsRead n s).2.length < s.length := by
  obtain ⟨n1, rfl⟩ : ∃ n1, n = n1 + 1 := ⟨n - 1, by omega⟩
  cases s with
  | nil => exact absurd rfl hs
  | cons b s1 => exact fgetsRead_rest_lt n1 b s1

theorem fgetc_rest_length_le (stream : FILE) :
    (fgetc stream).2.unread.length ≤ stream.unread.length := by
  unfold fgetc
  cases h : stream.unread with
  | nil => simp [h]
  | cons b rest => simp

theorem NewtRefIsString_iff (r : newtRef) :
    NewtRefIsString r = true ↔ ∃ text, r = newtRef.String text := by
  cases r <;> simp [NewtRefIsString]

theorem NewtFgetsStore_cases (mem : ObjMem) (result : newtRef)
    (hr : result = newtRef.NIL ∨ NewtRefIsString result = true)
    (str : List Byte) (len : Nat) :
    NewtFgetsStore mem result str len = none ∨
      ∃ text, NewtFgetsStore mem result str len = some (newtRef.String text) := by
  unfold NewtFgetsStore
  rcases hr with hr | hr
  · subst hr
    by_cases hc : mem.canAlloc len = true
    · right
      exact ⟨str.take len, by simp [NewtMakeString2, hc, NewtRefIsNIL]⟩
    · left
      simp [NewtMakeString2, hc, NewtRefIsNIL]
  · obtain ⟨a, rfl⟩ := (NewtRefIsString_iff result).mp hr
    by_cases hc : mem.canAlloc (a.length + len) = true
    · by_cases hl : NewtStringLength (NewtStrCat2 mem (newtRef.String a) str len) <
          NewtStringLength (newtRef.String a) + len
      · left; simp [hl]
      · right
        exact ⟨a ++ str.take len, by simp [hl]; simp [NewtStrCat2, hc]⟩
    · by_cases hl : NewtStringLength (NewtStrCat2 mem (newtRef.String a) str len) <
          NewtStringLength (newtRef.String a) + len
      · left; simp [hl]
      · right
        exact ⟨a, by simp [hl]; simp [NewtStrCat2, hc]⟩

/-- The tests after a fill either end the call or make the loop run again
without giving bytes back to the source; they leave the result as it is. -/
theorem NewtFgetsCheck_cases (m : Nat) (sg : Bool) (buff : List Byte) (len : Nat)
    (result : newtRef) (stream : FILE) (fills : Nat) :
    ∃ st1, (NewtFgetsCheck (m + 1) sg buff len result stream fills = some (FgetsStep.ret st1) ∨
        (NewtFgetsCheck (m + 1) sg buff len result stream fills = some (FgetsStep.again st1) ∧
          st1.stream.unread.length ≤ stream.unread.length)) ∧
      st1.result = result ∧ st1.fills = fills := by
  unfold NewtFgetsCheck
  by_cases h1 : len < m + 1
  · exact ⟨⟨result, stream, fills⟩, Or.inl (by rw [if_pos h1]), rfl, rfl⟩
  · rw [if_neg h1, if_neg (Nat.succ_ne_zero m)]
    by_cases h2 : buff.getD (m + 1 - 1) NUL = LF
    · exact ⟨⟨result, stream, fills⟩, Or.inl (by rw [if_pos h2]), rfl, rfl⟩
    · rw [if_neg h2]
      by_cases h3 : buff.getD (m + 1 - 1) NUL = CR
      · rw [if_pos h3]
        by_cases h4 : toChar sg (fgetc stream).1 = 10
        · exact ⟨⟨result, (fgetc stream).2, fills⟩,
            Or.inr ⟨by rw [if_neg (not_not.mpr h4)], fgetc_rest_length_le stream⟩, rfl, rfl⟩
        · exact ⟨⟨result, ungetc (toChar sg (fgetc stream).1) (fgetc stream).2, fills⟩,
            Or.inl (by rw [if_pos h4]), rfl, rfl⟩
      · rw [if_neg h3]
        exact ⟨⟨result, stream, fills⟩, Or.inr ⟨rfl, Nat.le_refl _⟩, rfl, rfl⟩

/-- One pass over a source that is not at end-of-input, with a buffer of at
least two bytes: the call ends, or the loop runs again with a string result
and fewer unread bytes. The result is a string or the out-of-memory signal,
and a string whenever allocation succeeds. -/
theorem NewtFgetsBody_cases (B : Nat) (hB : 2 ≤ B) (sg : Bool) (mem : ObjMem)
    (st : FgetsState)
    (hr : st.result = newtRef.NIL ∨ NewtRefIsString st.result = true)
    (hne : st.stream.unread ≠ []) :
    ∃ st1, (NewtFgetsBody B sg mem st = some (FgetsStep.ret st1) ∨
        (NewtFgetsBody B sg mem st = some (FgetsStep.again st1) ∧
          NewtRefIsString st1.result = true ∧
          st1.stream.unread.length < st.stream.unread.length)) ∧
      (NewtRefIsString st1.result = true ∨
        st1.result = NewtThrow0 kNErrOutOfObjectMemory) ∧
      (mem.AllocOK → NewtRefIsString st1.result = true) ∧
      st1.fills = st.fills + 1 := by
  obtain ⟨m, rfl⟩ : ∃ m, B = m + 2 := ⟨B - 2, by omega⟩
  have e : m + 2 - 1 = m + 1 := by omega
  have hshort := fgetsRead_rest_length_lt (m + 1) st.stream.unread (by omega) hne
  unfold NewtFgetsBody
  rw [fgets_fill (m + 2) hB st.stream hne, e]
  rcases NewtFgetsStore_cases mem st.result hr
      ((fgetsRead (m + 1) st.stream.unread).1 ++ [NUL])
      (strlen ((fgetsRead (m + 1) st.stream.unread).1 ++ [NUL])) with hst | ⟨text, hst⟩
  · refine ⟨⟨NewtThrow0 kNErrOutOfObjectMemory,
      { st.stream with unread := (fgetsRead (m + 1) st.stream.unread).2 },
      st.fills + 1⟩, Or.inl (by simp only [hst]), Or.inr rfl, ?_, rfl⟩
    intro hm
    have hok := NewtFgetsStore_ok mem hm st.result hr
      ((fgetsRead (m + 1) st.stream.unread).1 ++ [NUL])
      (strlen ((fgetsRead (m + 1) st.stream.unread).1 ++ [NUL])) (cstr_length_le _)
    rw [hst] at hok
    exact absurd hok (by simp)
  · obtain ⟨st1, hcase, hres, hfills⟩ := NewtFgetsCheck_cases m sg
      ((fgetsRead (m + 1) st.stream.unread).1 ++ [NUL])
      (strlen ((fgetsRead (m + 1) st.stream.unread).1 ++ [NUL]))
      (newtRef.String text)
      { st.stream with unread := (fgetsRead (m + 1) st.stream.unread).2 }
      (st.fills + 1)
    have hstr : NewtRefIsString st1.result = true := by rw [hres]; rfl
    refine ⟨st1, ?_, Or.inl hstr, fun _ => hstr, hfills⟩
    simp only [hst]
    rcases hcase with h | ⟨h, hl⟩
    · exact Or.inl h
    · exact Or.inr ⟨h, hstr, Nat.lt_of_le_of_lt hl hshort⟩

/-- The loop returns once the fuel exceeds the number of unread bytes. At
end-of-input it returns its state unchanged; otherwise its result is a string
or the out-of-memory signal, and a string whenever allocation succeeds. -/
theorem NewtFgetsLoop_total (B : Nat) (hB : 2 ≤ B) (sg : Bool) (mem : ObjMem) :
    ∀ (fuel : Nat) (st : FgetsState),
      (st.result = newtRef.NIL ∨ NewtRefIsString st.result = true) →
      st.stream.unread.length < fuel →
      ∃ out, NewtFgetsLoop B sg mem fuel st = some out ∧
        (st.stream.unread = [] → out = st) ∧
        (st.stream.unread ≠ [] →
          (NewtRefIsString out.result = true ∨
            out.result = NewtThrow0 kNErrOutOfObjectMemory) ∧
          (mem.AllocOK → NewtRefIsString out.result = true)) := by
  intro fuel
  induction fuel with
  | zero => intro st _ h; omega
  | succ fuel ih =>
    intro st hr hfuel
    by_cases he : st.stream.unread = []
    · exact ⟨st, NewtFgetsLoop_ret B sg mem fuel st st (NewtFgetsBody_eof B hB sg mem st he),
        fun _ => rfl, fun h => absurd he h⟩
    · obtain ⟨st1, hcase, hres, hok, -⟩ := NewtFgetsBody_cases B hB sg mem st hr he
      rcases hcase with h | ⟨h, hstr, hlt⟩
      · exact ⟨st1, NewtFgetsLoop_ret B sg mem fuel st st1 h, fun h0 => absurd h0 he,
          fun _ => ⟨hres, hok⟩⟩
      · obtain ⟨out, hout, hnil, hnon⟩ := ih st1 (Or.inr hstr) (by omega)
        refine ⟨out, ?_, fun h0 => absurd h0 he, fun _ => ?_⟩
        · rw [NewtFgetsLoop_again B sg mem fuel st st1 h]
          exact hout
        · by_cases he1 : st1.stream.unread = []
          · rw [hnil he1]
            exact ⟨Or.inl hstr, fun _ => hstr⟩
          · exact hnon he1

/-- C6. With a buffer of at least two bytes `NewtFgets` returns, and its
result is the nil sentinel if and only if the source is at end-of-input when
it is called: an empty source yields nil, not an empty string, and when
string allocation succeeds every non-empty source yields a string value. -/
theorem C6_nil_iff_end_of_input (NEWT_FGETS_BUFFSIZE : Nat) (hB : 2 ≤ NEWT_FGETS_BUFFSIZE)
    (charSigned : Bool) (mem : ObjMem) (stream : FILE) :
    ∃ out, NewtFgets NEWT_FGETS_BUFFSIZE charSigned mem stream = some out ∧
      (out.result = newtRef.NIL ↔ stream.unread = []) ∧
      (stream.unread = [] → out.result ≠ newtRef.String []) ∧
      (mem.AllocOK → stream.unread ≠ [] → ∃ text, out.result = newtRef.String text) := by
  obtain ⟨out, hout, hnil, hnon⟩ := NewtFgetsLoop_total NEWT_FGETS_BUFFSIZE hB charSigned mem
    (stream.unread.length + 1) ⟨newtRef.NIL, stream, 0⟩ (Or.inl rfl) (Nat.lt_succ_self _)
  refine ⟨out, hout, ⟨?_, ?_⟩, ?_, ?_⟩
  · intro h
    by_contra hne
    rcases (hnon hne).1 with hs | ht
    · rw [h] at hs
      simp [NewtRefIsString] at hs
    · rw [h] at ht
      simp [NewtThrow0] at ht
  · intro he
    rw [hnil he]
  · intro he
    rw [hnil he]
    simp
  · intro hm hne
    exact (NewtRefIsString_iff out.result).mp ((hnon hne).2 hm)

/-- C6 with a buffer of 5 bytes: the empty source yields nil, and the source
"a" yields a string. -/
theorem C6_nil_iff_end_of_input_witness :
    (∃ out, NewtFgets 5 true ObjMem.unbounded (FILE.ofBytes []) = some out ∧
      out.result = newtRef.NIL ∧ out.result ≠ newtRef.String []) ∧
    (∃ out, NewtFgets 5 true ObjMem.unbounded (FILE.ofBytes [97]) = some out ∧
      out.result ≠ newtRef.NIL ∧ ∃ text, out.result = newtRef.String text) := by
  constructor
  · obtain ⟨out, h, hiff, hne, -⟩ :=
      C6_nil_iff_end_of_input 5 (by decide) true ObjMem.unbounded (FILE.ofBytes [])
    exact ⟨out, h, hiff.mpr rfl, hne rfl⟩
  · obtain ⟨out, h, hiff, -, hstr⟩ :=
      C6_nil_iff_end_of_input 5 (by decide) true ObjMem.unbounded (FILE.ofBytes [97])
    exact ⟨out, h, fun hn => absurd (hiff.mp hn) (by simp [FILE.ofBytes]),
      hstr (fun _ => rfl) (by simp [FILE.ofBytes])⟩

/-! ### The Formatted Writer -/

theorem NewtStrCat_ok (mem : ObjMem) (hm : mem.AllocOK) (sink wk : List Byte) :
    NewtStrCat mem (newtRef.String sink) wk = newtRef.String (sink ++ cstr wk) := by
  simp [NewtStrCat, NewtStrCat2, hm (sink.length + strlen wk), take_strlen]

theorem NewtStrCat_cases (mem : ObjMem) (sink wk : List Byte) :
    NewtStrCat mem (newtRef.String sink) wk = newtRef.String (sink ++ cstr wk) ∨
      NewtStrCat mem (newtRef.String sink) wk = newtRef.String (sink ++ []) := by
  by_cases h : mem.canAlloc (sink.length + strlen wk) = true
  · left; simp [NewtStrCat, NewtStrCat2, h, take_strlen]
  · right; simp [NewtStrCat, NewtStrCat2, h]

theorem wk_set_terminator (N : Nat) (r : List Byte) (h : N ≤ r.length) :
    (r.take (N - 1) ++ [NUL]).set (N - 1) NUL = r.take (N - 1) ++ [NUL] := by
  have hl : (r.take (N - 1)).length = N - 1 := by simp; omega
  rw [List.set_append]
  simp [hl]

/-- The C string that `NIOVfprintf` hands to `NewtStrCat` when the render is
longer than the buffer: the first `N - 1` bytes of the render up to their
first NUL. -/
theorem NIOVfprintf_truncated (N : Nat) (hN : 0 < N) (mem : ObjMem) (file : FILE)
    (sink r : List Byte) (hlong : N < r.length) :
    NIOVfprintf N mem ⟨file, newtRef.String sink⟩ (Render.complete r) =
      ⟨(r.length : Int),
       ⟨file, NewtStrCat mem (newtRef.String sink) (r.take (N - 1) ++ [NUL])⟩, [N - 1]⟩ := by
  have h0 : N ≠ 0 := by omega
  have hpos : (0 : Int) < (r.length : Int) := by omega
  have hlt : (N : Int) < (r.length : Int) := by omega
  simp only [NIOVfprintf, NewtRefIsString, vsnprintf, if_neg h0, if_pos hpos, if_pos hlt,
    wk_set_terminator N r (Nat.le_of_lt hlong)]
  rfl

/-- The C string that `NIOVfprintf` hands to `NewtStrCat` when the render is
not empty and not longer than the buffer. -/
theorem NIOVfprintf_fits (N : Nat) (hN : 0 < N) (mem : ObjMem) (file : FILE)
    (sink r : List Byte) (hne : r ≠ []) (hfit : r.length ≤ N) :
    NIOVfprintf N mem ⟨file, newtRef.String sink⟩ (Render.complete r) =
      ⟨(r.length : Int),
       ⟨file, NewtStrCat mem (newtRef.String sink) (r.take (N - 1) ++ [NUL])⟩, []⟩ := by
  have h0 : N ≠ 0 := by omega
  have hpos0 : 0 < r.length := List.length_pos.mpr hne
  have hpos : (0 : Int) < (r.length : Int) := by omega
  have hlt : ¬ (N : Int) < (r.length : Int) := by omega
  simp only [NIOVfprintf, NewtRefIsString, vsnprintf, if_neg h0, if_pos hpos, if_neg hlt]
  rfl

theorem NIOVfprintf_empty (N : Nat) (mem : ObjMem) (stream : newtStream_t)
    (hs : NewtRefIsString stream.obj = true) :
    NIOVfprintf N mem stream (Render.complete []) = ⟨0, stream, []⟩ := by
  simp [NIOVfprintf, hs, vsnprintf]

theorem NIOVfprintf_failed (N : Nat) (mem : ObjMem) (stream : newtStream_t)
    (hs : NewtRefIsString stream.obj = true) (before : List Byte) :
    NIOVfprintf N mem stream (Render.failed before) = ⟨-1, stream, []⟩ := by
  simp [NIOVfprintf, hs, vsnprintf]

theorem NIOVfprintf_to_file (N : Nat) (mem : ObjMem) (stream : newtStream_t)
    (hs : NewtRefIsString stream.obj = false) (render : Render) :
    NIOVfprintf N mem stream render =
      ⟨(vfprintf stream.file render).1,
       { stream with file := (vfprintf stream.file render).2 }, []⟩ := by
  simp [NIOVfprintf, hs]

/-- C7 fails as stated: with a capacity of 4 the render "A\0BCD", of length
5, leaves only "A" in the Sink, not its first three characters "A\0B". -/
theorem C7_truncation_counterexample :
    (4 : Nat) < ([65, 0, 66, 67, 68] : List Byte).length ∧
    (NIOVfprintf 4 ObjMem.unbounded ⟨FILE.ofBytes [], newtRef.String []⟩
        (Render.complete [65, 0, 66, 67, 68])).stream.obj = newtRef.String [65] ∧
    (NIOVfprintf 4 ObjMem.unbounded ⟨FILE.ofBytes [], newtRef.String []⟩
        (Render.complete [65, 0, 66, 67, 68])).stream.obj ≠
      newtRef.String ([] ++ List.take (4 - 1) [65, 0, 66, 67, 68]) := by
  decide

/-- C7 as amended. For every capacity `N` of at least one and every render
longer than `N`, with allocation succeeding, `NIOVfprintf` on a String Sink
target appends the first `N - 1` characters of the render up to their first
NUL, which is exactly the first `N - 1` characters when these contain no NUL;
the only index of `wk` it assigns is `N - 1`, inside the buffer, and the file
handle is untouched. -/
theorem C7_truncation_keeps_head (NEWT_SNPRINTF_BUFFSIZE : Nat)
    (hN : 0 < NEWT_SNPRINTF_BUFFSIZE) (mem : ObjMem) (hm : mem.AllocOK) (file : FILE)
    (sink r : List Byte) (hlong : NEWT_SNPRINTF_BUFFSIZE < r.length) :
    (NIOVfprintf NEWT_SNPRINTF_BUFFSIZE mem ⟨file, newtRef.String sink⟩ (Render.complete r)).stream.obj =
        newtRef.String (sink ++ cstr (r.take (NEWT_SNPRINTF_BUFFSIZE - 1))) ∧
    ((∀ b ∈ r.take (NEWT_SNPRINTF_BUFFSIZE - 1), b ≠ NUL) →
      (NIOVfprintf NEWT_SNPRINTF_BUFFSIZE mem ⟨file, newtRef.String sink⟩ (Render.complete r)).stream.obj =
        newtRef.String (sink ++ r.take (NEWT_SNPRINTF_BUFFSIZE - 1))) ∧
    (NIOVfprintf NEWT_SNPRINTF_BUFFSIZE mem ⟨file, newtRef.String sink⟩ (Render.complete r)).stores =
        [NEWT_SNPRINTF_BUFFSIZE - 1] ∧
    (∀ i ∈ (NIOVfprintf NEWT_SNPRINTF_BUFFSIZE mem ⟨file, newtRef.String sink⟩
        (Render.complete r)).stores, i < NEWT_SNPRINTF_BUFFSIZE) ∧
    (NIOVfprintf NEWT_SNPRINTF_BUFFSIZE mem ⟨file, newtRef.String sink⟩ (Render.complete r)).stream.file =
        file := by
  rw [NIOVfprintf_truncated NEWT_SNPRINTF_BUFFSIZE hN mem file sink r hlong,
    NewtStrCat_ok mem hm, cstr_append_nul]
  refine ⟨rfl, ?_, rfl, ?_, rfl⟩
  · intro h
    rw [cstr_of_noNul _ h]
  · intro i hi
    simp at hi
    omega

/-- C7 as amended with a capacity of 4: the render "ABCDE" leaves "ABC" in
the Sink and the terminator is stored at index 3. -/
theorem C7_truncation_keeps_head_witness :
    (NIOVfprintf 4 ObjMem.unbounded ⟨FILE.ofBytes [], newtRef.String [49]⟩
        (Render.complete [65, 66, 67, 68, 69])).stream.obj = newtRef.String [49, 65, 66, 67] ∧
    (NIOVfprintf 4 ObjMem.unbounded ⟨FILE.ofBytes [], newtRef.String [49]⟩
        (Render.complete [65, 66, 67, 68, 69])).stores = [3] :=
  ⟨(C7_truncation_keeps_head 4 (by decide) ObjMem.unbounded (fun _ => rfl)
      (FILE.ofBytes []) [49] [65, 66, 67, 68, 69] (by decide)).2.1 (by simp; decide),
   (C7_truncation_keeps_head 4 (by decide) ObjMem.unbounded (fun _ => rfl)
      (FILE.ofBytes []) [49] [65, 66, 67, 68, 69] (by decide)).2.2.1⟩

/-- C8 fails as stated: with a capacity of 16 the render "A\0B", of length
3, is written whole to a file handle, while the Sink receives only "A". -/
theorem C8_cross_target_counterexample :
    ([65, 0, 66] : List Byte).length < 16 ∧
    (NIOVfprintf 16 ObjMem.unbounded ⟨FILE.ofBytes [], newtRef.Unbind⟩
        (Render.complete [65, 0, 66])).stream.file.written = [65, 0, 66] ∧
    (NIOVfprintf 16 ObjMem.unbounded ⟨FILE.ofBytes [], newtRef.String []⟩
        (Render.complete [65, 0, 66])).stream.obj = newtRef.String [65] ∧
    (NIOVfprintf 16 ObjMem.unbounded ⟨FILE.ofBytes [], newtRef.String []⟩
        (Render.complete [65, 0, 66])).stream.obj ≠ newtRef.String ([] ++ [65, 0, 66]) := by
  decide

/-- C8 as amended. For every render shorter than the capacity, with
allocation succeeding, `NIOVfprintf` appends to a String Sink target the
characters of the render before its first NUL, while the same call on a
target that is not a string writes the whole render to a file handle that
accepts writes; so for a render without NUL, the empty render included, the
Sink receives exactly what the file receives: sink_after = sink_before ++
render. -/
theorem C8_cross_target_before_NUL (NEWT_SNPRINTF_BUFFSIZE : Nat) (mem : ObjMem)
    (hm : mem.AllocOK) (file : FILE) (target : newtRef) (sink r : List Byte)
    (hshort : r.length < NEWT_SNPRINTF_BUFFSIZE)
    (ht : NewtRefIsString target = false) (hw : file.werr = false) :
    (NIOVfprintf NEWT_SNPRINTF_BUFFSIZE mem ⟨file, newtRef.String sink⟩ (Render.complete r)).stream.obj =
        newtRef.String (sink ++ cstr r) ∧
    (NIOVfprintf NEWT_SNPRINTF_BUFFSIZE mem ⟨file, target⟩ (Render.complete r)).stream.file.written =
        file.written ++ r ∧
    ((∀ b ∈ r, b ≠ NUL) →
      (NIOVfprintf NEWT_SNPRINTF_BUFFSIZE mem ⟨file, newtRef.String sink⟩ (Render.complete r)).stream.obj =
        newtRef.String (sink ++ r)) := by
  have hobj : (NIOVfprintf NEWT_SNPRINTF_BUFFSIZE mem ⟨file, newtRef.String sink⟩
      (Render.complete r)).stream.obj = newtRef.String (sink ++ cstr r) := by
    by_cases hne : r = []
    · subst hne
      rw [NIOVfprintf_empty NEWT_SNPRINTF_BUFFSIZE mem ⟨file, newtRef.String sink⟩ rfl]
      simp [cstr]
    · rw [NIOVfprintf_fits NEWT_SNPRINTF_BUFFSIZE (by omega) mem file sink r hne
        (Nat.le_of_lt hshort), NewtStrCat_ok mem hm, cstr_append_nul,
        List.take_of_length_le (by omega)]
  refine ⟨hobj, ?_, ?_⟩
  · rw [NIOVfprintf_to_file NEWT_SNPRINTF_BUFFSIZE mem ⟨file, target⟩ ht]
    simp [vfprintf, hw]
  · intro h
    rw [hobj, cstr_of_noNul r h]

/-- C8 as amended with a capacity of 16: the render "AB" is appended whole to
the Sink "1" and written whole to the file. -/
theorem C8_cross_target_before_NUL_witness :
    (NIOVfprintf 16 ObjMem.unbounded ⟨FILE.ofBytes [], newtRef.Unbind⟩
        (Render.complete [65, 66])).stream.file.written = [] ++ [65, 66] ∧
    (NIOVfprintf 16 ObjMem.unbounded ⟨FILE.ofBytes [], newtRef.String [49]⟩
        (Render.complete [65, 66])).stream.obj = newtRef.String ([49] ++ [65, 66]) :=
  ⟨(C8_cross_target_before_NUL 16 ObjMem.unbounded (fun _ => rfl) (FILE.ofBytes [])
      newtRef.Unbind [49] [65, 66] (by decide) rfl rfl).2.1,
   (C8_cross_target_before_NUL 16 ObjMem.unbounded (fun _ => rfl) (FILE.ofBytes [])
      newtRef.Unbind [49] [65, 66] (by decide) rfl rfl).2.2 (by simp; decide)⟩

/-- A render that is not empty: the value returned and the buffer handed to
`NewtStrCat`, whether or not the render fits. -/
theorem NIOVfprintf_sink (N : Nat) (hN : 0 < N) (mem : ObjMem) (file : FILE)
    (sink r : List Byte) (hne : r ≠ []) :
    (NIOVfprintf N mem ⟨file, newtRef.String sink⟩ (Render.complete r)).result = (r.length : Int) ∧
    (NIOVfprintf N mem ⟨file, newtRef.String sink⟩ (Render.complete r)).stream.obj =
      NewtStrCat mem (newtRef.String sink) (r.take (N - 1) ++ [NUL]) := by
  by_cases hlong : N < r.length
  · rw [NIOVfprintf_truncated N hN mem file sink r hlong]
    exact ⟨rfl, rfl⟩
  · rw [NIOVfprintf_fits N hN mem file sink r hne (by omega)]
    exact ⟨rfl, rfl⟩

theorem NewtStrCat_length_le (mem : ObjMem) (sink wk : List Byte) :
    sink.length ≤ NewtStringLength (NewtStrCat mem (newtRef.String sink) wk) ∧
    NewtStringLength (NewtStrCat mem (newtRef.String sink) wk) ≤ sink.length + strlen wk := by
  rcases NewtStrCat_cases mem sink wk with h | h
  · rw [h]; simp [NewtStringLength, strlen]
  · rw [h]; simp [NewtStringLength]

/-- What the Sink holds after `NIOVfprintf` when allocation succeeds: the
first `N - 1` bytes of the render up to their first NUL, appended. -/
theorem NIOVfprintf_sink_ok (N : Nat) (hN : 0 < N) (mem : ObjMem) (hm : mem.AllocOK)
    (file : FILE) (sink r : List Byte) :
    (NIOVfprintf N mem ⟨file, newtRef.String sink⟩ (Render.complete r)).stream.obj =
      newtRef.String (sink ++ cstr (r.take (N - 1))) := by
  by_cases hne : r = []
  · subst hne
    rw [NIOVfprintf_empty N mem ⟨file, newtRef.String sink⟩ rfl]
    simp [cstr]
  · rw [(NIOVfprintf_sink N hN mem file sink r hne).2, NewtStrCat_ok mem hm, cstr_append_nul]

/-- The value `NIOVfprintf` returns on a String Sink target for a complete
render, set against the growth of the Sink: the length of the render, more
than the growth when the render does not fit in `N - 1` characters, and equal
to it for a fitting render without NUL when allocation succeeds. -/
theorem NIOVfprintf_result_and_growth (N : Nat) (hN : 0 < N) (mem : ObjMem)
    (stream : newtStream_t) (hs : NewtRefIsString stream.obj = true) (r : List Byte) :
    (NIOVfprintf N mem stream (Render.complete r)).result = (r.length : Int) ∧
    (N ≤ r.length →
      (NewtStringLength (NIOVfprintf N mem stream (Render.complete r)).stream.obj : Int) -
          (NewtStringLength stream.obj : Int) <
        (NIOVfprintf N mem stream (Render.complete r)).result) ∧
    (r.length < N → (∀ b ∈ r, b ≠ NUL) → mem.AllocOK →
      (NewtStringLength (NIOVfprintf N mem stream (Render.complete r)).stream.obj : Int) -
          (NewtStringLength stream.obj : Int) =
        (NIOVfprintf N mem stream (Render.complete r)).result) := by
  obtain ⟨file, obj⟩ := stream
  obtain ⟨sink, rfl⟩ := (NewtRefIsString_iff obj).mp hs
  by_cases hne : r = []
  · subst hne
    rw [NIOVfprintf_empty N mem ⟨file, newtRef.String sink⟩ rfl]
    refine ⟨rfl, ?_, ?_⟩
    · intro h
      simp at h
      omega
    · intro _ _ _
      simp
  · obtain ⟨h1, h2⟩ := NIOVfprintf_sink N hN mem file sink r hne
    rw [h1, h2]
    have hle := NewtStrCat_length_le mem sink (r.take (N - 1) ++ [NUL])
    have hc : strlen (r.take (N - 1) ++ [NUL]) ≤ N - 1 := by
      rw [strlen_buff]
      have := cstr_length_le (r.take (N - 1))
      simp at this
      omega
    refine ⟨rfl, ?_, ?_⟩
    · intro hlong
      simp only [NewtStringLength] at hle ⊢
      omega
    · intro hshort hnul hm
      rw [NewtStrCat_ok mem hm, cstr_append_nul, List.take_of_length_le (by omega),
        cstr_of_noNul r hnul]
      simp [NewtStringLength]

theorem NIOVfprintf_result (N : Nat) (mem : ObjMem) (stream : newtStream_t)
    (hs : NewtRefIsString stream.obj = true) (render : Render) :
    (NIOVfprintf N mem stream render).result = (vsnprintf N render).2 := by
  unfold NIOVfprintf
  simp only [hs, if_true]
  split_ifs <;> rfl

/-- C9. For every template and arguments, each of `NIOVfprintf`, `NIOFprintf`
and `NewtFprintf` on a String Sink target returns the value reported by the
render call, which for a render that succeeds is its untruncated length.
For each of the three: when the render is truncated (it does not fit in
`N - 1` characters) that value is strictly greater than the number of
characters appended to the Sink; when it is not truncated, contains no NUL
and allocation succeeds, the value equals the number of characters appended.
For `NewtFprintf` the Sink is the target of the descriptor that `NIOSetFile`
binds to the handle. `NIOFprintf` and `NewtFprintf` leave exactly what
`NIOVfprintf` leaves on that descriptor. -/
theorem C9_result_is_logical_length (NEWT_SNPRINTF_BUFFSIZE : Nat)
    (hN : 0 < NEWT_SNPRINTF_BUFFSIZE) (mem : ObjMem) (stream : newtStream_t)
    (hs : NewtRefIsString stream.obj = true) (render : Render) :
    (NIOVfprintf NEWT_SNPRINTF_BUFFSIZE mem stream render).result =
        (vsnprintf NEWT_SNPRINTF_BUFFSIZE render).2 ∧
    (NIOFprintf NEWT_SNPRINTF_BUFFSIZE mem stream render).result =
        (vsnprintf NEWT_SNPRINTF_BUFFSIZE render).2 ∧
    (∀ globals f, NIOSetFile globals f = stream →
      (NewtFprintf NEWT_SNPRINTF_BUFFSIZE mem globals f render).result =
        (vsnprintf NEWT_SNPRINTF_BUFFSIZE render).2) ∧
    (∀ r, render = Render.complete r →
      (NIOVfprintf NEWT_SNPRINTF_BUFFSIZE mem stream render).result = (r.length : Int) ∧
      (NEWT_SNPRINTF_BUFFSIZE ≤ r.length →
        (NewtStringLength
            (NIOVfprintf NEWT_SNPRINTF_BUFFSIZE mem stream render).stream.obj : Int) -
          (NewtStringLength stream.obj : Int) <
          (NIOVfprintf NEWT_SNPRINTF_BUFFSIZE mem stream render).result) ∧
      (r.length < NEWT_SNPRINTF_BUFFSIZE → (∀ b ∈ r, b ≠ NUL) → mem.AllocOK →
        (NewtStringLength
            (NIOVfprintf NEWT_SNPRINTF_BUFFSIZE mem stream render).stream.obj : Int) -
          (NewtStringLength stream.obj : Int) =
          (NIOVfprintf NEWT_SNPRINTF_BUFFSIZE mem stream render).result)) ∧
    (∀ r, render = Render.complete r →
      (NIOFprintf NEWT_SNPRINTF_BUFFSIZE mem stream render).result = (r.length : Int) ∧
      (NEWT_SNPRINTF_BUFFSIZE ≤ r.length →
        (NewtStringLength
            (NIOFprintf NEWT_SNPRINTF_BUFFSIZE mem stream render).stream.obj : Int) -
          (NewtStringLength stream.obj : Int) <
          (NIOFprintf NEWT_SNPRINTF_BUFFSIZE mem stream render).result) ∧
      (r.length < NEWT_SNPRINTF_BUFFSIZE → (∀ b ∈ r, b ≠ NUL) → mem.AllocOK →
        (NewtStringLength
            (NIOFprintf NEWT_SNPRINTF_BUFFSIZE mem stream render).stream.obj : Int) -
          (NewtStringLength stream.obj : Int) =
          (NIOFprintf NEWT_SNPRINTF_BUFFSIZE mem stream render).result)) ∧
    (∀ globals f, NIOSetFile globals f = stream →
      (∀ r, render = Render.complete r →
        (NewtFprintf NEWT_SNPRINTF_BUFFSIZE mem globals f render).result = (r.length : Int) ∧
        (NEWT_SNPRINTF_BUFFSIZE ≤ r.length →
          (NewtStringLength
              (NewtFprintf NEWT_SNPRINTF_BUFFSIZE mem globals f render).stream.obj : Int) -
            (NewtStringLength stream.obj : Int) <
            (NewtFprintf NEWT_SNPRINTF_BUFFSIZE mem globals f render).result) ∧
        (r.length < NEWT_SNPRINTF_BUFFSIZE → (∀ b ∈ r, b ≠ NUL) → mem.AllocOK →
          (NewtStringLength
              (NewtFprintf NEWT_SNPRINTF_BUFFSIZE mem globals f render).stream.obj : Int) -
            (NewtStringLength stream.obj : Int) =
            (NewtFprintf NEWT_SNPRINTF_BUFFSIZE mem globals f render).result))) ∧
    NIOFprintf NEWT_SNPRINTF_BUFFSIZE mem stream render =
        NIOVfprintf NEWT_SNPRINTF_BUFFSIZE mem stream render ∧
    (∀ globals f, NIOSetFile globals f = stream →
      NewtFprintf NEWT_SNPRINTF_BUFFSIZE mem globals f render =
        NIOVfprintf NEWT_SNPRINTF_BUFFSIZE mem stream render) := by
  have hres := NIOVfprintf_result NEWT_SNPRINTF_BUFFSIZE mem stream hs render
  have hrel : ∀ r, render = Render.complete r →
      (NIOVfprintf NEWT_SNPRINTF_BUFFSIZE mem stream render).result = (r.length : Int) ∧
      (NEWT_SNPRINTF_BUFFSIZE ≤ r.length →
        (NewtStringLength
            (NIOVfprintf NEWT_SNPRINTF_BUFFSIZE mem stream render).stream.obj : Int) -
          (NewtStringLength stream.obj : Int) <
          (NIOVfprintf NEWT_SNPRINTF_BUFFSIZE mem stream render).result) ∧
      (r.length < NEWT_SNPRINTF_BUFFSIZE → (∀ b ∈ r, b ≠ NUL) → mem.AllocOK →
        (NewtStringLength
            (NIOVfprintf NEWT_SNPRINTF_BUFFSIZE mem stream render).stream.obj : Int) -
          (NewtStringLength stream.obj : Int) =
          (NIOVfprintf NEWT_SNPRINTF_BUFFSIZE mem stream render).result) := by
    intro r hr
    subst hr
    exact NIOVfprintf_result_and_growth NEWT_SNPRINTF_BUFFSIZE hN mem stream hs r
  refine ⟨hres, hres, ?_, hrel, hrel, ?_, rfl, ?_⟩
  · intro globals f hf
    unfold NewtFprintf
    rw [hf]
    exact hres
  · intro globals f hf
    unfold NewtFprintf
    rw [hf]
    exact hrel
  · intro globals f hf
    unfold NewtFprintf
    rw [hf]

/-- C9 with a capacity of 4 and the Sink "1". Through `NIOVfprintf`, through
`NIOFprintf` and through `NewtFprintf` on `stdout` redirected to that Sink,
the render "ABCDE" returns 5, more than the growth of the Sink, and the
render "AB" returns the growth of the Sink. -/
theorem C9_result_is_logical_length_witness :
    (NIOVfprintf 4 ObjMem.unbounded ⟨FILE.ofBytes [], newtRef.String [49]⟩
        (Render.complete [65, 66, 67, 68, 69])).result = 5 ∧
    (NewtStringLength (NIOVfprintf 4 ObjMem.unbounded ⟨FILE.ofBytes [], newtRef.String [49]⟩
        (Render.complete [65, 66, 67, 68, 69])).stream.obj : Int) -
        (NewtStringLength (newtRef.String [49]) : Int) <
      (NIOVfprintf 4 ObjMem.unbounded ⟨FILE.ofBytes [], newtRef.String [49]⟩
        (Render.complete [65, 66, 67, 68, 69])).result ∧
    (NewtStringLength (NIOFprintf 4 ObjMem.unbounded ⟨FILE.ofBytes [], newtRef.String [49]⟩
        (Render.complete [65, 66, 67, 68, 69])).stream.obj : Int) -
        (NewtStringLength (newtRef.String [49]) : Int) <
      (NIOFprintf 4 ObjMem.unbounded ⟨FILE.ofBytes [], newtRef.String [49]⟩
        (Render.complete [65, 66, 67, 68, 69])).result ∧
    (NewtFprintf 4 ObjMem.unbounded ⟨some (newtRef.String [49]), none⟩ ⟨1, [], [], false⟩
        (Render.complete [65, 66, 67, 68, 69])).result =
      (vsnprintf 4 (Render.complete [65, 66, 67, 68, 69])).2 ∧
    (NewtStringLength (NewtFprintf 4 ObjMem.unbounded ⟨some (newtRef.String [49]), none⟩
        ⟨1, [], [], false⟩ (Render.complete [65, 66, 67, 68, 69])).stream.obj : Int) -
        (NewtStringLength (newtRef.String [49]) : Int) <
      (NewtFprintf 4 ObjMem.unbounded ⟨some (newtRef.String [49]), none⟩
        ⟨1, [], [], false⟩ (Render.complete [65, 66, 67, 68, 69])).result ∧
    (NewtStringLength (NIOVfprintf 4 ObjMem.unbounded ⟨FILE.ofBytes [], newtRef.String [49]⟩
        (Render.complete [65, 66])).stream.obj : Int) -
        (NewtStringLength (newtRef.String [49]) : Int) =
      (NIOVfprintf 4 ObjMem.unbounded ⟨FILE.ofBytes [], newtRef.String [49]⟩
        (Render.complete [65, 66])).result ∧
    (NewtStringLength (NewtFprintf 4 ObjMem.unbounded ⟨some (newtRef.String [49]), none⟩
        ⟨1, [], [], false⟩ (Render.complete [65, 66])).stream.obj : Int) -
        (NewtStringLength (newtRef.String [49]) : Int) =
      (NewtFprintf 4 ObjMem.unbounded ⟨some (newtRef.String [49]), none⟩
        ⟨1, [], [], false⟩ (Render.complete [65, 66])).result :=
  ⟨((C9_result_is_logical_length 4 (by decide) ObjMem.unbounded
      ⟨FILE.ofBytes [], newtRef.String [49]⟩ rfl (Render.complete [65, 66, 67, 68, 69])).2.2.2.1
        [65, 66, 67, 68, 69] rfl).1,
   ((C9_result_is_logical_length 4 (by decide) ObjMem.unbounded
      ⟨FILE.ofBytes [], newtRef.String [49]⟩ rfl (Render.complete [65, 66, 67, 68, 69])).2.2.2.1
        [65, 66, 67, 68, 69] rfl).2.1 (by decide),
   ((C9_result_is_logical_length 4 (by decide) ObjMem.unbounded
      ⟨FILE.ofBytes [], newtRef.String [49]⟩ rfl
        (Render.complete [65, 66, 67, 68, 69])).2.2.2.2.1
        [65, 66, 67, 68, 69] rfl).2.1 (by decide),
   (C9_result_is_logical_length 4 (by decide) ObjMem.unbounded
      ⟨⟨1, [], [], false⟩, newtRef.String [49]⟩ rfl (Render.complete [65, 66, 67, 68, 69])).2.2.1
        ⟨some (newtRef.String [49]), none⟩ ⟨1, [], [], false⟩ rfl,
   (((C9_result_is_logical_length 4 (by decide) ObjMem.unbounded
      ⟨⟨1, [], [], false⟩, newtRef.String [49]⟩ rfl
        (Render.complete [65, 66, 67, 68, 69])).2.2.2.2.2.1
        ⟨some (newtRef.String [49]), none⟩ ⟨1, [], [], false⟩ rfl)
        [65, 66, 67, 68, 69] rfl).2.1 (by decide),
   ((C9_result_is_logical_length 4 (by decide) ObjMem.unbounded
      ⟨FILE.ofBytes [], newtRef.String [49]⟩ rfl (Render.complete [65, 66])).2.2.2.1
        [65, 66] rfl).2.2 (by decide) (by simp; decide) (fun _ => rfl),
   (((C9_result_is_logical_length 4 (by decide) ObjMem.unbounded
      ⟨⟨1, [], [], false⟩, newtRef.String [49]⟩ rfl (Render.complete [65, 66])).2.2.2.2.2.1
        ⟨some (newtRef.String [49]), none⟩ ⟨1, [], [], false⟩ rfl)
        [65, 66] rfl).2.2 (by decide) (by simp; decide) (fun _ => rfl)⟩

/-! ### The dispatch of the Stream Descriptor -/

theorem cstr_sprintf_c (c : Int) (h : toUChar c ≠ NUL) : cstr (sprintf_c c) = [toUChar c] := by
  simp [sprintf_c, cstr, List.takeWhile_cons, h]

/-- C10. Dispatch invariant of the Stream Descriptor, for each of
`NIOVfprintf`, `NIOFputc` and `NIOFputs`. If the target is a String Sink the
write only appends to that Sink and the file handle, content and position, is
unchanged; with allocation succeeding what is appended is exactly the C
string written: the string given to `NIOFputs`, the character given to
`NIOFputc` unless it is NUL, and the first `N - 1` characters of the render
up to their first NUL for `NIOVfprintf`, while a render that fails appends
nothing. Otherwise the target object is unchanged and the write is the one
the file primitive makes on the file handle. A descriptor bound to a handle
other than `stdout` and `stderr`, or to one whose global is missing, has a
target that is not a String Sink. -/
theorem C10_dispatch_invariant (NEWT_SNPRINTF_BUFFSIZE : Nat) (mem : ObjMem)
    (stream : newtStream_t) (render : Render) (c : Int) (str : List Byte) :
    (NewtRefIsString stream.obj = true →
      ((∃ app, (NIOVfprintf NEWT_SNPRINTF_BUFFSIZE mem stream render).stream.obj =
          newtRef.String (accText stream.obj ++ app)) ∧
        (NIOVfprintf NEWT_SNPRINTF_BUFFSIZE mem stream render).stream.file = stream.file) ∧
      ((∃ app, (NIOFputc mem c stream).2.obj = newtRef.String (accText stream.obj ++ app)) ∧
        (NIOFputc mem c stream).2.file = stream.file) ∧
      ((∃ app, (NIOFputs mem str stream).2.obj = newtRef.String (accText stream.obj ++ app)) ∧
        (NIOFputs mem str stream).2.file = stream.file) ∧
      (mem.AllocOK →
        (NIOFputs mem str stream).2.obj = newtRef.String (accText stream.obj ++ cstr str) ∧
        (NIOFputc mem c stream).2.obj =
          newtRef.String (accText stream.obj ++ cstr (sprintf_c c)) ∧
        (toUChar c ≠ NUL →
          (NIOFputc mem c stream).2.obj =
            newtRef.String (accText stream.obj ++ [toUChar c])) ∧
        (0 < NEWT_SNPRINTF_BUFFSIZE → ∀ r, render = Render.complete r →
          (NIOVfprintf NEWT_SNPRINTF_BUFFSIZE mem stream render).stream.obj =
            newtRef.String
              (accText stream.obj ++ cstr (r.take (NEWT_SNPRINTF_BUFFSIZE - 1))))) ∧
      (∀ before, render = Render.failed before →
        (NIOVfprintf NEWT_SNPRINTF_BUFFSIZE mem stream render).stream.obj = stream.obj) ∧
      (NIOFputc mem c stream).1 = 0 ∧ (NIOFputs mem str stream).1 = 0) ∧
    (NewtRefIsString stream.obj = false →
      ((NIOVfprintf NEWT_SNPRINTF_BUFFSIZE mem stream render).stream.obj = stream.obj ∧
        ((NIOVfprintf NEWT_SNPRINTF_BUFFSIZE mem stream render).result,
          (NIOVfprintf NEWT_SNPRINTF_BUFFSIZE mem stream render).stream.file) =
            vfprintf stream.file render) ∧
      ((NIOFputc mem c stream).2.obj = stream.obj ∧
        ((NIOFputc mem c stream).1, (NIOFputc mem c stream).2.file) = fputc c stream.file) ∧
      ((NIOFputs mem str stream).2.obj = stream.obj ∧
        ((NIOFputs mem str stream).1, (NIOFputs mem str stream).2.file) =
          fputs str stream.file)) ∧
    (∀ globals f, f.fd ≠ 1 → f.fd ≠ 2 →
      NewtRefIsString (NIOSetFile globals f).obj = false) ∧
    (∀ f, NewtRefIsString (NIOSetFile ⟨none, none⟩ f).obj = false) := by
  refine ⟨?_, ?_, ?_, ?_⟩
  · intro hs
    obtain ⟨file, obj⟩ := stream
    obtain ⟨sink, rfl⟩ := (NewtRefIsString_iff obj).mp hs
    refine ⟨⟨?_, ?_⟩, ⟨?_, ?_⟩, ⟨?_, ?_⟩, ?_, ?_, ?_, ?_⟩
    · unfold NIOVfprintf
      simp only [NewtRefIsString, if_true, accText]
      split_ifs
      · rcases NewtStrCat_cases mem sink
          ((vsnprintf NEWT_SNPRINTF_BUFFSIZE render).1.set (NEWT_SNPRINTF_BUFFSIZE - 1) NUL)
          with h | h
        · exact ⟨_, h⟩
        · exact ⟨_, h⟩
      · rcases NewtStrCat_cases mem sink (vsnprintf NEWT_SNPRINTF_BUFFSIZE render).1
          with h | h
        · exact ⟨_, h⟩
        · exact ⟨_, h⟩
      · exact ⟨[], by simp⟩
    · unfold NIOVfprintf
      simp only [NewtRefIsString, if_true]
      split_ifs <;> rfl
    · simp only [NIOFputc, NewtRefIsString, if_true, accText]
      rcases NewtStrCat_cases mem sink (sprintf_c c) with h | h
      · exact ⟨_, h⟩
      · exact ⟨_, h⟩
    · simp [NIOFputc, NewtRefIsString]
    · simp only [NIOFputs, NewtRefIsString, if_true, accText]
      rcases NewtStrCat_cases mem sink str with h | h
      · exact ⟨_, h⟩
      · exact ⟨_, h⟩
    · simp [NIOFputs, NewtRefIsString]
    · intro hm
      have hputc : (NIOFputc mem c ⟨file, newtRef.String sink⟩).2.obj =
          newtRef.String (accText (newtRef.String sink) ++ cstr (sprintf_c c)) := by
        simp only [NIOFputc, NewtRefIsString, if_true, accText]
        exact NewtStrCat_ok mem hm sink (sprintf_c c)
      refine ⟨?_, hputc, ?_, ?_⟩
      · simp only [NIOFputs, NewtRefIsString, if_true, accText]
        exact NewtStrCat_ok mem hm sink str
      · intro hc
        rw [hputc, cstr_sprintf_c c hc]
      · intro hN r hr
        subst hr
        exact NIOVfprintf_sink_ok NEWT_SNPRINTF_BUFFSIZE hN mem hm file sink r
    · intro before hr
      subst hr
      rw [NIOVfprintf_failed NEWT_SNPRINTF_BUFFSIZE mem ⟨file, newtRef.String sink⟩ rfl]
    · simp [NIOFputc, NewtRefIsString]
    · simp [NIOFputs, NewtRefIsString]
  · intro hs
    refine ⟨⟨?_, ?_⟩, ⟨?_, ?_⟩, ⟨?_, ?_⟩⟩
    · rw [NIOVfprintf_to_file NEWT_SNPRINTF_BUFFSIZE mem stream hs]
    · rw [NIOVfprintf_to_file NEWT_SNPRINTF_BUFFSIZE mem stream hs]
    · simp [NIOFputc, hs]
    · simp [NIOFputc, hs]
    · simp [NIOFputs, hs]
    · simp [NIOFputs, hs]
  · intro globals f h1 h2
    simp [NIOSetFile, h1, h2, NewtRefIsString]
  · intro f
    unfold NIOSetFile NcGetGlobalVar
    simp only [Option.getD_none]
    split_ifs <;> rfl

/-- C10 at a descriptor whose target is the Sink "1" and at one whose target
is unbound. On the Sink the file is unchanged, `NIOFputs` of "AB" leaves
"1AB", `NIOFputc` of 65 leaves "1A" and `NIOVfprintf` of the render "AB"
leaves "1AB". On the unbound target "AB" is written to the file and the
target is unchanged. A descriptor bound to the handle 7 has no String Sink as
target. -/
theorem C10_dispatch_invariant_witness :
    ((∃ app, (NIOVfprintf 16 ObjMem.unbounded ⟨FILE.ofBytes [], newtRef.String [49]⟩
          (Render.complete [65, 66])).stream.obj =
        newtRef.String (accText (newtRef.String [49]) ++ app)) ∧
      (NIOVfprintf 16 ObjMem.unbounded ⟨FILE.ofBytes [], newtRef.String [49]⟩
          (Render.complete [65, 66])).stream.file = FILE.ofBytes []) ∧
    (NIOFputs ObjMem.unbounded [65, 66] ⟨FILE.ofBytes [], newtRef.String [49]⟩).2.obj =
      newtRef.String (accText (newtRef.String [49]) ++ cstr [65, 66]) ∧
    (NIOFputc ObjMem.unbounded 65 ⟨FILE.ofBytes [], newtRef.String [49]⟩).2.obj =
      newtRef.String (accText (newtRef.String [49]) ++ [toUChar 65]) ∧
    (NIOVfprintf 16 ObjMem.unbounded ⟨FILE.ofBytes [], newtRef.String [49]⟩
        (Render.complete [65, 66])).stream.obj =
      newtRef.String (accText (newtRef.String [49]) ++ cstr (List.take (16 - 1) [65, 66])) ∧
    ((NIOVfprintf 16 ObjMem.unbounded ⟨FILE.ofBytes [], newtRef.Unbind⟩
          (Render.complete [65, 66])).stream.obj = newtRef.Unbind ∧
      ((NIOVfprintf 16 ObjMem.unbounded ⟨FILE.ofBytes [], newtRef.Unbind⟩
          (Render.complete [65, 66])).result,
        (NIOVfprintf 16 ObjMem.unbounded ⟨FILE.ofBytes [], newtRef.Unbind⟩
          (Render.complete [65, 66])).stream.file) =
        vfprintf (FILE.ofBytes []) (Render.complete [65, 66])) ∧
    NewtRefIsString
      (NIOSetFile ⟨some (newtRef.String [49]), none⟩ ⟨7, [], [], false⟩).obj = false :=
  ⟨((C10_dispatch_invariant 16 ObjMem.unbounded ⟨FILE.ofBytes [], newtRef.String [49]⟩
      (Render.complete [65, 66]) 65 [65, 66]).1 rfl).1,
   (((C10_dispatch_invariant 16 ObjMem.unbounded ⟨FILE.ofBytes [], newtRef.String [49]⟩
      (Render.complete [65, 66]) 65 [65, 66]).1 rfl).2.2.2.1 (fun _ => rfl)).1,
   (((C10_dispatch_invariant 16 ObjMem.unbounded ⟨FILE.ofBytes [], newtRef.String [49]⟩
      (Render.complete [65, 66]) 65 [65, 66]).1 rfl).2.2.2.1 (fun _ => rfl)).2.2.1
        (by decide),
   (((C10_dispatch_invariant 16 ObjMem.unbounded ⟨FILE.ofBytes [], newtRef.String [49]⟩
      (Render.complete [65, 66]) 65 [65, 66]).1 rfl).2.2.2.1 (fun _ => rfl)).2.2.2
        (by decide) [65, 66] rfl,
   ((C10_dispatch_invariant 16 ObjMem.unbounded ⟨FILE.ofBytes [], newtRef.Unbind⟩
      (Render.complete [65, 66]) 65 [65, 66]).2.1 rfl).1,
   (C10_dispatch_invariant 16 ObjMem.unbounded ⟨FILE.ofBytes [], newtRef.Unbind⟩
      (Render.complete [65, 66]) 65 [65, 66]).2.2.1 ⟨some (newtRef.String [49]), none⟩
        ⟨7, [], [], false⟩ (by decide) (by decide)⟩

/-! ### Out of object memory -/

theorem NewtFgetsBody_out_of_memory (B : Nat) (sg : Bool) (mem : ObjMem) (st : FgetsState)
    (buff : List Byte) (stream1 : FILE) (hf : fgets B st.stream = some (buff, stream1))
    (hs : NewtFgetsStore mem st.result buff (strlen buff) = none) :
    NewtFgetsBody B sg mem st =
      some (FgetsStep.ret ⟨NewtThrow0 kNErrOutOfObjectMemory, stream1, st.fills + 1⟩) := by
  unfold NewtFgetsBody
  rw [hf]
  simp only [hs]

theorem NewtFgetsStore_create_fails (mem : ObjMem) (str : List Byte) (len : Nat)
    (h : NewtRefIsNIL (NewtMakeString2 mem str len) = true) :
    NewtFgetsStore mem newtRef.NIL str len = none := by
  unfold NewtFgetsStore
  simp [h]

theorem NewtFgetsStore_append_fails (mem : ObjMem) (result : newtRef) (str : List Byte)
    (len : Nat) (hr : result ≠ newtRef.NIL)
    (h : NewtStringLength (NewtStrCat2 mem result str len) < NewtStringLength result + len) :
    NewtFgetsStore mem result str len = none := by
  unfold NewtFgetsStore
  simp [hr, h]

/-- C11. Out-of-memory handling in `NewtFgets`. If the create primitive yields
nil on the first successful fill, the call returns the out-of-object-memory
signal with the source left where that fill ended, after one fill. If in any
later pass the Sink is shorter after the append than its prior length plus
the appended length, the loop returns the same signal at once, with the
source left where that fill ended and no further fill counted. The signal is
neither nil nor a string. -/
theorem C11_out_of_memory_signalled (NEWT_FGETS_BUFFSIZE : Nat) (charSigned : Bool)
    (mem : ObjMem) :
    (∀ (stream : FILE) (buff : List Byte) (stream1 : FILE),
      fgets NEWT_FGETS_BUFFSIZE stream = some (buff, stream1) →
      NewtRefIsNIL (NewtMakeString2 mem buff (strlen buff)) = true →
      NewtFgets NEWT_FGETS_BUFFSIZE charSigned mem stream =
        some ⟨NewtThrow0 kNErrOutOfObjectMemory, stream1, 1⟩) ∧
    (∀ (fuel : Nat) (st : FgetsState) (buff : List Byte) (stream1 : FILE),
      st.result ≠ newtRef.NIL →
      fgets NEWT_FGETS_BUFFSIZE st.stream = some (buff, stream1) →
      NewtStringLength (NewtStrCat2 mem st.result buff (strlen buff)) <
        NewtStringLength st.result + strlen buff →
      NewtFgetsLoop NEWT_FGETS_BUFFSIZE charSigned mem (fuel + 1) st =
        some ⟨NewtThrow0 kNErrOutOfObjectMemory, stream1, st.fills + 1⟩) ∧
    NewtThrow0 kNErrOutOfObjectMemory ≠ newtRef.NIL ∧
    (∀ text, NewtThrow0 kNErrOutOfObjectMemory ≠ newtRef.String text) := by
  refine ⟨?_, ?_, ?_, ?_⟩
  · intro stream buff stream1 hf hnil
    unfold NewtFgets
    apply NewtFgetsLoop_ret
    exact NewtFgetsBody_out_of_memory _ _ _ ⟨newtRef.NIL, stream, 0⟩ buff stream1 hf
      (NewtFgetsStore_create_fails mem buff _ hnil)
  · intro fuel st buff stream1 hr hf hshort
    apply NewtFgetsLoop_ret
    exact NewtFgetsBody_out_of_memory _ _ _ st buff stream1 hf
      (NewtFgetsStore_append_fails mem st.result buff _ hr hshort)
  · simp [NewtThrow0]
  · intro text
    simp [NewtThrow0]

/-- C11 with a buffer of 5 bytes on "abcdefgh\n". An object memory that holds
3 bytes fails the creation from the first fill "abcd": the signal is returned
and "efgh\n" is left. With "abcd" already stored and an object memory that
holds 5 bytes, the append of "efgh" falls short: the signal is returned and
"\n" is left. -/
theorem C11_out_of_memory_signalled_witness :
    NewtFgets 5 true (ObjMem.bounded 3)
        (FILE.ofBytes [97, 98, 99, 100, 101, 102, 103, 104, 10]) =
      some ⟨NewtThrow0 kNErrOutOfObjectMemory, FILE.ofBytes [101, 102, 103, 104, 10], 1⟩ ∧
    NewtFgetsLoop 5 true (ObjMem.bounded 5) (5 + 1)
        ⟨newtRef.String [97, 98, 99, 100], FILE.ofBytes [101, 102, 103, 104, 10], 1⟩ =
      some ⟨NewtThrow0 kNErrOutOfObjectMemory, FILE.ofBytes [10], 1 + 1⟩ :=
  ⟨(C11_out_of_memory_signalled 5 true (ObjMem.bounded 3)).1
      (FILE.ofBytes [97, 98, 99, 100, 101, 102, 103, 104, 10])
      [97, 98, 99, 100, 0] (FILE.ofBytes [101, 102, 103, 104, 10]) (by decide) (by decide),
   (C11_out_of_memory_signalled 5 true (ObjMem.bounded 5)).2.1 5
      ⟨newtRef.String [97, 98, 99, 100], FILE.ofBytes [101, 102, 103, 104, 10], 1⟩
      [101, 102, 103, 104, 0] (FILE.ofBytes [10]) (by decide) (by decide) (by decide)⟩

/-! ### The Character Writer -/

theorem toUChar_of_byte_range (c : Int) (h0 : 0 ≤ c) (h1 : c ≤ 255) :
    ((toUChar c).val : Int) = c := by
  unfold toUChar
  simp [Fin.ofNat]
  omega

theorem toUChar_ne_NUL (c : Int) (h0 : 1 ≤ c) (h1 : c ≤ 255) : toUChar c ≠ NUL := by
  intro h
  have hv := toUChar_of_byte_range c (by omega) h1
  rw [h] at hv
  simp at hv
  omega

theorem cstr_sprintf_c_zero : cstr (sprintf_c 0) = [] := by
  decide

/-- C12 fails as stated: `NIOFputc(0, stream)` on the Sink "1" returns 0 and
leaves the Sink "1"; the character 0 is not appended and the length does not
grow. -/
theorem C12_putc_NUL_counterexample :
    NIOFputc ObjMem.unbounded 0 ⟨FILE.ofBytes [], newtRef.String [49]⟩ =
        (0, ⟨FILE.ofBytes [], newtRef.String [49]⟩) ∧
    (NIOFputc ObjMem.unbounded 0 ⟨FILE.ofBytes [], newtRef.String [49]⟩).2.obj ≠
      newtRef.String ([49] ++ [toUChar 0]) := by
  decide

/-- C12 as amended. With allocation succeeding, `NIOFputc` with a String Sink
target returns 0 and, for every character code `c` in 1..255, appends exactly
the one character `c` to the Sink, whose length grows by one; for `c = 0` the
Sink is left as it was. With a target that is not a string it returns the
result of `fputc` on the file handle. -/
theorem C12_putc_appends_one_character (mem : ObjMem) (hm : mem.AllocOK) (c : Int)
    (file : FILE) (sink : List Byte) (target : newtRef) :
    (1 ≤ c → c ≤ 255 →
      NIOFputc mem c ⟨file, newtRef.String sink⟩ =
          (0, ⟨file, newtRef.String (sink ++ [toUChar c])⟩) ∧
        ((toUChar c).val : Int) = c ∧
        NewtStringLength (NIOFputc mem c ⟨file, newtRef.String sink⟩).2.obj =
          sink.length + 1) ∧
    NIOFputc mem 0 ⟨file, newtRef.String sink⟩ = (0, ⟨file, newtRef.String sink⟩) ∧
    (NewtRefIsString target = false →
      (NIOFputc mem c ⟨file, target⟩).1 = (fputc c file).1) := by
  refine ⟨?_, ?_, ?_⟩
  · intro h0 h1
    have hput : NIOFputc mem c ⟨file, newtRef.String sink⟩ =
        (0, ⟨file, newtRef.String (sink ++ [toUChar c])⟩) := by
      simp only [NIOFputc, NewtRefIsString, if_true]
      rw [NewtStrCat_ok mem hm, cstr_sprintf_c c (toUChar_ne_NUL c h0 h1)]
    refine ⟨hput, toUChar_of_byte_range c (by omega) h1, ?_⟩
    rw [hput]
    simp [NewtStringLength]
  · simp only [NIOFputc, NewtRefIsString, if_true]
    rw [NewtStrCat_ok mem hm, cstr_sprintf_c_zero]
    simp
  · intro ht
    simp [NIOFputc, ht]

/-- C12 as amended at the Sink "1": the character 65 is appended, and on an
unbound target the result is that of `fputc`. -/
theorem C12_putc_appends_one_character_witness :
    NIOFputc ObjMem.unbounded 65 ⟨FILE.ofBytes [], newtRef.String [49]⟩ =
        (0, ⟨FILE.ofBytes [], newtRef.String ([49] ++ [toUChar 65])⟩) ∧
    (NIOFputc ObjMem.unbounded 65 ⟨FILE.ofBytes [], newtRef.Unbind⟩).1 =
        (fputc 65 (FILE.ofBytes [])).1 :=
  ⟨((C12_putc_appends_one_character ObjMem.unbounded (fun _ => rfl) 65 (FILE.ofBytes [])
      [49] newtRef.Unbind).1 (by decide) (by decide)).1,
   (C12_putc_appends_one_character ObjMem.unbounded (fun _ => rfl) 65 (FILE.ofBytes [])
      [49] newtRef.Unbind).2.2 rfl⟩

/-! ### The Raw Key Reader -/

theorem tcsetattr_pending (tios : termios) (t : Terminal) :
    (tcsetattr tios t).2.pending = t.pending := by
  unfold tcsetattr
  split <;> rfl

theorem read_of_pending (t u : Terminal) (h : t.pending = u.pending) :
    (read t).1 = (read u).1 ∧ (read t).2.1 = (read u).2.1 := by
  unfold read
  rw [h]
  cases u.pending <;> exact ⟨rfl, rfl⟩

theorem read_mode (t : Terminal) : (read t).2.2.mode = t.mode := by
  unfold read
  cases t.pending <;> rfl

theorem read_setattrErr (t : Terminal) : (read t).2.2.setattrErr = t.setattrErr := by
  unfold read
  cases t.pending <;> rfl

/-- When the query of the terminal mode fails `NsGetch` returns the
system-error signal and only `errno` has changed. -/
theorem NsGetch_query_fails (sg : Bool) (f : Int → Int) (t : Terminal) (e : Int)
    (h : t.getattrErr = some e) :
    NsGetch sg f t = ⟨NewtThrow kNErrSystemError (f e), { t with errno := e }⟩ := by
  simp [NsGetch, tcgetattr, h]

/-- When the query succeeds the result of `NsGetch` is a character or nil,
decided by the read alone. -/
theorem NsGetch_query_ok (sg : Bool) (f : Int → Int) (t : Terminal)
    (h : t.getattrErr = none) :
    (NsGetch sg f t).result =
      if (if 0 < (read t).1 then toChar sg ((read t).2.1.val : Int) else 0) ≠ 0 then
        NewtMakeCharacter (if 0 < (read t).1 then toChar sg ((read t).2.1.val : Int) else 0)
      else newtRef.NIL := by
  have hp := read_of_pending
    (tcsetattr { t.mode with ICANON := false, ECHO := false, VTIME := 0, VMIN := 1 } t).2 t
    (tcsetattr_pending _ t)
  simp only [NsGetch, tcgetattr, h]
  rw [hp.1, hp.2]
  split_ifs <;> rfl

theorem NsGetch_query_ok_not_thrown (sg : Bool) (f : Int → Int) (t : Terminal)
    (h : t.getattrErr = none) (err value : Int) :
    (NsGetch sg f t).result ≠ NewtThrow err value := by
  rw [NsGetch_query_ok sg f t h]
  split_ifs <;> simp [NewtThrow, NewtMakeCharacter]

/-- C13 fails as stated: both set-mode calls fail with error 5 while the
query succeeds and the key "a" is read; `NsGetch` returns the character 97 and
no system-error signal. -/
theorem C13_setattr_failure_counterexample :
    (NsGetch true id ⟨termios.cooked, 0, none, [some 5, some 5], ReadOutcome.byte 97⟩).result =
        NewtMakeCharacter 97 ∧
    ¬ ∃ value,
      (NsGetch true id ⟨termios.cooked, 0, none, [some 5, some 5], ReadOutcome.byte 97⟩).result =
        NewtThrow kNErrSystemError value := by
  refine ⟨by decide, ?_⟩
  rintro ⟨value, h⟩
  exact NsGetch_query_ok_not_thrown true id _ rfl _ _ h

/-- C13 as amended. `NsGetch` returns a system-error signal if and only if
querying the terminal mode fails, and the signal then carries
`NewtRefToInteger(errno)` for the error code of that failure. Failures of
the set-mode calls are not signalled: when the query succeeds the result is
the same whatever the outcomes of the two `tcsetattr` calls. -/
theorem C13_system_error_iff_query_fails (charSigned : Bool) (NewtRefToInteger : Int → Int)
    (t : Terminal) :
    ((∃ value, (NsGetch charSigned NewtRefToInteger t).result =
        NewtThrow kNErrSystemError value) ↔ t.getattrErr ≠ none) ∧
    (∀ e, t.getattrErr = some e →
      (NsGetch charSigned NewtRefToInteger t).result =
        NewtThrow kNErrSystemError (NewtRefToInteger e)) ∧
    (t.getattrErr = none → ∀ outcomes,
      (NsGetch charSigned NewtRefToInteger { t with setattrErr := outcomes }).result =
        (NsGetch charSigned NewtRefToInteger t).result) := by
  refine ⟨⟨?_, ?_⟩, ?_, ?_⟩
  · rintro ⟨value, hv⟩ hnone
    exact NsGetch_query_ok_not_thrown charSigned NewtRefToInteger t hnone _ _ hv
  · intro hne
    cases hg : t.getattrErr with
    | none => exact absurd hg hne
    | some e =>
      exact ⟨NewtRefToInteger e, by rw [NsGetch_query_fails charSigned NewtRefToInteger t e hg]⟩
  · intro e hg
    rw [NsGetch_query_fails charSigned NewtRefToInteger t e hg]
  · intro hnone outcomes
    rw [NsGetch_query_ok charSigned NewtRefToInteger t hnone,
      NsGetch_query_ok charSigned NewtRefToInteger { t with setattrErr := outcomes } hnone]
    have hp := read_of_pending { t with setattrErr := outcomes } t rfl
    rw [hp.1, hp.2]

/-- C13 as amended at a terminal whose query fails with error 25, and at one
whose query succeeds: the signal carries 25, and making both set-mode calls
fail does not change the result. -/
theorem C13_system_error_iff_query_fails_witness :
    (NsGetch true id ⟨termios.cooked, 0, some 25, [], ReadOutcome.byte 97⟩).result =
        NewtThrow kNErrSystemError (id 25) ∧
    (NsGetch true id
        { (⟨termios.cooked, 0, none, [], ReadOutcome.byte 97⟩ : Terminal) with
          setattrErr := [some 5, some 5] }).result =
      (NsGetch true id ⟨termios.cooked, 0, none, [], ReadOutcome.byte 97⟩).result :=
  ⟨(C13_system_error_iff_query_fails true id
      ⟨termios.cooked, 0, some 25, [], ReadOutcome.byte 97⟩).2.1 25 rfl,
   (C13_system_error_iff_query_fails true id
      ⟨termios.cooked, 0, none, [], ReadOutcome.byte 97⟩).2.2 rfl [some 5, some 5]⟩

/-- C14. With set-mode calls that succeed, the terminal mode after `NsGetch`
equals the terminal mode before it on every exit path: whether the read
delivers a byte, delivers nothing or fails, and when the query of the mode
fails. -/
theorem C14_terminal_mode_restored (charSigned : Bool) (NewtRefToInteger : Int → Int)
    (t : Terminal) (hset : ∀ o ∈ t.setattrErr, o = none) :
    (NsGetch charSigned NewtRefToInteger t).terminal.mode = t.mode := by
  cases hg : t.getattrErr with
  | some e => rw [NsGetch_query_fails charSigned NewtRefToInteger t e hg]
  | none =>
    have hsucc : ∀ (tios : termios) (u : Terminal), (∀ o ∈ u.setattrErr, o = none) →
        (tcsetattr tios u).2.mode = tios ∧
          ∀ o ∈ (tcsetattr tios u).2.setattrErr, o = none := by
      intro tios u hu
      unfold tcsetattr
      rcases hl : u.setattrErr with _ | ⟨o, rest⟩
      · simp [hl]
      · rw [hl] at hu
        have ho : o = none := hu o (List.mem_cons_self o rest)
        subst ho
        exact ⟨rfl, fun o ho => hu o (List.mem_cons_of_mem _ ho)⟩
    have h1 := hsucc { t.mode with ICANON := false, ECHO := false, VTIME := 0, VMIN := 1 } t hset
    have h2 := hsucc t.mode
      (read (tcsetattr { t.mode with ICANON := false, ECHO := false, VTIME := 0, VMIN := 1 }
        t).2).2.2
      (by rw [read_setattrErr]; exact h1.2)
    simp only [NsGetch, tcgetattr, hg]
    split_ifs <;> exact h2.1

/-- C14 at a line-buffered, echoing terminal: after a key was read, after a
read that fails, and after a query that fails, the mode is the one before the
call. -/
theorem C14_terminal_mode_restored_witness :
    (NsGetch true id ⟨termios.cooked, 0, none, [], ReadOutcome.byte 97⟩).terminal.mode =
        termios.cooked ∧
    (NsGetch true id ⟨termios.cooked, 0, none, [], ReadOutcome.failure 4⟩).terminal.mode =
        termios.cooked ∧
    (NsGetch true id ⟨termios.cooked, 0, some 25, [], ReadOutcome.nothing⟩).terminal.mode =
        termios.cooked :=
  ⟨C14_terminal_mode_restored true id ⟨termios.cooked, 0, none, [], ReadOutcome.byte 97⟩
      (by simp),
   C14_terminal_mode_restored true id ⟨termios.cooked, 0, none, [], ReadOutcome.failure 4⟩
      (by simp),
   C14_terminal_mode_restored true id ⟨termios.cooked, 0, some 25, [], ReadOutcome.nothing⟩
      (by simp)⟩

/-! ### The Formatted Writer at the exact capacity -/

/-- C15 fails as stated: with a capacity of 4 the render "A\0CD", of length
4, leaves "A" in the Sink, not its first three characters; and the render
"A\0C", of length 3, is not received whole although it is no longer than
capacity - 1. -/
theorem C15_exact_capacity_counterexample :
    ([65, 0, 67, 68] : List Byte).length = 4 ∧
    (NIOVfprintf 4 ObjMem.unbounded ⟨FILE.ofBytes [], newtRef.String []⟩
        (Render.complete [65, 0, 67, 68])).stream.obj ≠
      newtRef.String ([] ++ List.take (4 - 1) [65, 0, 67, 68]) ∧
    ([65, 0, 67] : List Byte).length ≤ 4 - 1 ∧
    (NIOVfprintf 4 ObjMem.unbounded ⟨FILE.ofBytes [], newtRef.String []⟩
        (Render.complete [65, 0, 67])).stream.obj ≠ newtRef.String ([] ++ [65, 0, 67]) := by
  decide

/-- C15 as amended. For every capacity `N` of at least one, with allocation
succeeding: for a render whose length equals `N` the guard
`sizeof(wk) < result` is false and no index of `wk` is assigned, `N` is
returned, and the Sink receives the first `N - 1` characters of the render up
to their first NUL, which for a render without NUL is the render without its
last character. Hence for a render without NUL the Sink receives the complete
render if and only if its length is at most `N - 1`. -/
theorem C15_exact_capacity_edge (NEWT_SNPRINTF_BUFFSIZE : Nat)
    (hN : 0 < NEWT_SNPRINTF_BUFFSIZE) (mem : ObjMem) (hm : mem.AllocOK) (file : FILE)
    (sink r : List Byte) :
    (r.length = NEWT_SNPRINTF_BUFFSIZE →
      ¬ ((NEWT_SNPRINTF_BUFFSIZE : Int) <
          (NIOVfprintf NEWT_SNPRINTF_BUFFSIZE mem ⟨file, newtRef.String sink⟩
            (Render.complete r)).result) ∧
      (NIOVfprintf NEWT_SNPRINTF_BUFFSIZE mem ⟨file, newtRef.String sink⟩ (Render.complete r)).stores =
        [] ∧
      (NIOVfprintf NEWT_SNPRINTF_BUFFSIZE mem ⟨file, newtRef.String sink⟩ (Render.complete r)).result =
        (NEWT_SNPRINTF_BUFFSIZE : Int) ∧
      (NIOVfprintf NEWT_SNPRINTF_BUFFSIZE mem ⟨file, newtRef.String sink⟩ (Render.complete r)).stream.obj =
        newtRef.String (sink ++ cstr (r.take (NEWT_SNPRINTF_BUFFSIZE - 1))) ∧
      ((∀ b ∈ r, b ≠ NUL) →
        (NIOVfprintf NEWT_SNPRINTF_BUFFSIZE mem ⟨file, newtRef.String sink⟩
          (Render.complete r)).stream.obj = newtRef.String (sink ++ r.dropLast))) ∧
    ((∀ b ∈ r, b ≠ NUL) →
      ((NIOVfprintf NEWT_SNPRINTF_BUFFSIZE mem ⟨file, newtRef.String sink⟩ (Render.complete r)).stream.obj =
          newtRef.String (sink ++ r) ↔
        r.length ≤ NEWT_SNPRINTF_BUFFSIZE - 1)) := by
  have hobj := NIOVfprintf_sink_ok NEWT_SNPRINTF_BUFFSIZE hN mem hm file sink r
  constructor
  · intro hlen
    have hne : r ≠ [] := by
      intro h
      rw [h] at hlen
      simp at hlen
      omega
    have hfit := NIOVfprintf_fits NEWT_SNPRINTF_BUFFSIZE hN mem file sink r hne
      (Nat.le_of_eq hlen)
    refine ⟨?_, ?_, ?_, hobj, ?_⟩
    · rw [hfit]
      simp [hlen]
    · rw [hfit]
    · rw [hfit]
      simp [hlen]
    · intro hnul
      rw [hobj, cstr_of_noNul _ (fun b hb => hnul b (List.mem_of_mem_take hb)),
        List.dropLast_eq_take, hlen]
  · intro hnul
    rw [hobj, cstr_of_noNul _ (fun b hb => hnul b (List.mem_of_mem_take hb))]
    constructor
    · intro h
      have h1 : sink ++ r.take (NEWT_SNPRINTF_BUFFSIZE - 1) = sink ++ r := by
        injection h
      exact List.take_eq_self_iff r |>.mp (List.append_cancel_left h1)
    · intro h
      rw [List.take_of_length_le h]

/-- C15 as amended with a capacity of 4: the render "ABCD" returns 4 and
leaves "ABC" in the Sink, "ABC" is received whole. -/
theorem C15_exact_capacity_edge_witness :
    (NIOVfprintf 4 ObjMem.unbounded ⟨FILE.ofBytes [], newtRef.String [49]⟩
        (Render.complete [65, 66, 67, 68])).result = ((4 : Nat) : Int) ∧
    (NIOVfprintf 4 ObjMem.unbounded ⟨FILE.ofBytes [], newtRef.String [49]⟩
        (Render.complete [65, 66, 67, 68])).stream.obj =
      newtRef.String ([49] ++ List.dropLast [65, 66, 67, 68]) ∧
    (NIOVfprintf 4 ObjMem.unbounded ⟨FILE.ofBytes [], newtRef.String [49]⟩
        (Render.complete [65, 66, 67])).stream.obj = newtRef.String ([49] ++ [65, 66, 67]) :=
  ⟨((C15_exact_capacity_edge 4 (by decide) ObjMem.unbounded (fun _ => rfl) (FILE.ofBytes [])
      [49] [65, 66, 67, 68]).1 rfl).2.2.1,
   ((C15_exact_capacity_edge 4 (by decide) ObjMem.unbounded (fun _ => rfl) (FILE.ofBytes [])
      [49] [65, 66, 67, 68]).1 rfl).2.2.2.2 (by simp; decide),
   ((C15_exact_capacity_edge 4 (by decide) ObjMem.unbounded (fun _ => rfl) (FILE.ofBytes [])
      [49] [65, 66, 67]).2 (by simp; decide)).mpr (by decide)⟩

/-! ### Termination and progress of the Line Reader -/

/-- A successful `fgets` into a buffer of at least two bytes takes at least
one byte from the source. -/
theorem fgets_takes_a_byte (B : Nat) (hB : 2 ≤ B) (stream : FILE) (buff : List Byte)
    (stream1 : FILE) (h : fgets B stream = some (buff, stream1)) :
    stream1.unread.length < stream.unread.length := by
  by_cases he : stream.unread = []
  · rw [fgets_eof B hB stream he] at h
    exact absurd h (by simp)
  · rw [fgets_fill B hB stream he] at h
    injection h with h
    injection h with _ h2
    rw [← h2]
    exact fgetsRead_rest_length_lt (B - 1) stream.unread (by omega) he

/-- The tests after a fill make the loop run again only when the stored
length is the whole buffer. -/
theorem NewtFgetsCheck_again_full (m : Nat) (sg : Bool) (buff : List Byte) (len : Nat)
    (result : newtRef) (stream : FILE) (fills : Nat) (st1 : FgetsState)
    (h : NewtFgetsCheck (m + 1) sg buff len result stream fills = some (FgetsStep.again st1)) :
    m + 1 ≤ len ∧ st1.stream.unread.length ≤ stream.unread.length ∧ st1.fills = fills := by
  obtain ⟨st2, hcase, -, hfills⟩ := NewtFgetsCheck_cases m sg buff len result stream fills
  have hlen : m + 1 ≤ len := by
    by_contra hlt
    rw [NewtFgetsCheck_short (m + 1) sg buff len result stream fills (by omega)] at h
    exact absurd h (by simp)
  rcases hcase with h2 | ⟨h2, hl⟩
  · rw [h2] at h
    exact absurd h (by simp)
  · rw [h2] at h
    injection h with h
    injection h with h
    subst h
    exact ⟨hlen, hl, hfills⟩

/-- A pass after which the loop runs again has counted one fill and has taken
at least a whole buffer of bytes from the source. -/
theorem NewtFgetsBody_again (B : Nat) (hB : 2 ≤ B) (sg : Bool) (mem : ObjMem)
    (st st1 : FgetsState) (h : NewtFgetsBody B sg mem st = some (FgetsStep.again st1)) :
    st1.fills = st.fills + 1 ∧
      st1.stream.unread.length + (B - 1) ≤ st.stream.unread.length := by
  by_cases he : st.stream.unread = []
  · rw [NewtFgetsBody_eof B hB sg mem st he] at h
    exact absurd h (by simp)
  · obtain ⟨m, rfl⟩ : ∃ m, B = m + 2 := ⟨B - 2, by omega⟩
    have e : m + 2 - 1 = m + 1 := by omega
    have happ := congrArg List.length (fgetsRead_append (m + 1) st.stream.unread)
    rw [List.length_append] at happ
    unfold NewtFgetsBody at h
    rw [fgets_fill (m + 2) hB st.stream he, e] at h
    cases hst : NewtFgetsStore mem st.result
        ((fgetsRead (m + 1) st.stream.unread).1 ++ [NUL])
        (strlen ((fgetsRead (m + 1) st.stream.unread).1 ++ [NUL])) with
    | none =>
      simp only [hst] at h
      exact absurd h (by simp)
    | some r =>
      simp only [hst] at h
      obtain ⟨h1, h2, h3⟩ := NewtFgetsCheck_again_full m sg _ _ _ _ _ st1 h
      rw [strlen_buff] at h1
      have h4 := cstr_length_le (fgetsRead (m + 1) st.stream.unread).1
      simp only at h2
      rw [e]
      exact ⟨h3, by omega⟩

/-- The loop returns, and the fills it counts are bounded by the unread bytes
divided by the fill capacity, plus one. -/
theorem NewtFgetsLoop_fills_bound (B : Nat) (hB : 2 ≤ B) (sg : Bool) (mem : ObjMem) :
    ∀ (fuel : Nat) (st : FgetsState),
      (st.result = newtRef.NIL ∨ NewtRefIsString st.result = true) →
      st.stream.unread.length < fuel →
      ∃ out, NewtFgetsLoop B sg mem fuel st = some out ∧
        out.fills ≤ st.fills + st.stream.unread.length / (B - 1) + 1 := by
  intro fuel
  induction fuel with
  | zero => intro st _ h; omega
  | succ fuel ih =>
    intro st hr hfuel
    by_cases he : st.stream.unread = []
    · refine ⟨st, NewtFgetsLoop_ret B sg mem fuel st st (NewtFgetsBody_eof B hB sg mem st he),
        ?_⟩
      generalize st.stream.unread.length / (B - 1) = q
      omega
    · obtain ⟨st1, hcase, -, -, hfills⟩ := NewtFgetsBody_cases B hB sg mem st hr he
      rcases hcase with h | ⟨h, hstr, hlt⟩
      · refine ⟨st1, NewtFgetsLoop_ret B sg mem fuel st st1 h, ?_⟩
        rw [hfills]
        generalize st.stream.unread.length / (B - 1) = q
        omega
      · obtain ⟨out, hout, hb⟩ := ih st1 (Or.inr hstr) (by omega)
        have hcons := (NewtFgetsBody_again B hB sg mem st st1 h).2
        have hpos : 0 < B - 1 := by omega
        have hdiv : st1.stream.unread.length / (B - 1) + 1 ≤
            st.stream.unread.length / (B - 1) := by
          rw [← Nat.add_div_right _ hpos]
          exact Nat.div_le_div_right hcons
        refine ⟨out, ?_, ?_⟩
        · rw [NewtFgetsLoop_again B sg mem fuel st st1 h]
          exact hout
        · rw [hfills] at hb
          generalize st.stream.unread.length / (B - 1) = q at hdiv ⊢
          generalize st1.stream.unread.length / (B - 1) = q1 at hdiv hb
          omega

/-- More fuel does not change what the loop returns. -/
theorem NewtFgetsLoop_fuel_mono (B : Nat) (sg : Bool) (mem : ObjMem) :
    ∀ (fuel : Nat) (st out : FgetsState),
      NewtFgetsLoop B sg mem fuel st = some out →
      ∀ more, NewtFgetsLoop B sg mem (fuel + more) st = some out := by
  intro fuel
  induction fuel with
  | zero => intro st out h; simp [NewtFgetsLoop] at h
  | succ fuel ih =>
    intro st out h more
    have e : fuel + 1 + more = (fuel + more) + 1 := by omega
    rw [e]
    cases hb : NewtFgetsBody B sg mem st with
    | none => simp [NewtFgetsLoop, hb] at h
    | some step =>
      cases step with
      | ret st1 =>
        rw [NewtFgetsLoop_ret B sg mem fuel st st1 hb] at h
        rw [NewtFgetsLoop_ret B sg mem (fuel + more) st st1 hb]
        exact h
      | again st1 =>
        rw [NewtFgetsLoop_again B sg mem fuel st st1 hb] at h
        rw [NewtFgetsLoop_again B sg mem (fuel + more) st st1 hb]
        exact ih st1 out h more

/-- C16. Termination and progress of the Line Reader, for every input, every
allocator and every buffer of at least two bytes. The fill loop of
`NewtFgets` terminates: the call returns, and running the loop for any larger
number of passes returns the same. Every fill takes at least one byte from
the source, and every pass after which the loop runs again leaves fewer bytes
unread. The number of fills is at most the number of bytes available divided
by `NEWT_FGETS_BUFFSIZE - 1`, plus one. -/
theorem C16_terminates_with_bounded_fills (NEWT_FGETS_BUFFSIZE : Nat)
    (hB : 2 ≤ NEWT_FGETS_BUFFSIZE) (charSigned : Bool) (mem : ObjMem) (stream : FILE) :
    (∃ out, NewtFgets NEWT_FGETS_BUFFSIZE charSigned mem stream = some out ∧
      (∀ more, NewtFgetsLoop NEWT_FGETS_BUFFSIZE charSigned mem
          (stream.unread.length + 1 + more) ⟨newtRef.NIL, stream, 0⟩ = some out) ∧
      out.fills ≤ stream.unread.length / (NEWT_FGETS_BUFFSIZE - 1) + 1) ∧
    (∀ (s : FILE) (buff : List Byte) (s1 : FILE),
      fgets NEWT_FGETS_BUFFSIZE s = some (buff, s1) →
      s1.unread.length < s.unread.length) ∧
    (∀ (st st1 : FgetsState),
      NewtFgetsBody NEWT_FGETS_BUFFSIZE charSigned mem st = some (FgetsStep.again st1) →
      st1.stream.unread.length < st.stream.unread.length) := by
  refine ⟨?_, ?_, ?_⟩
  · obtain ⟨out, hout, hb⟩ := NewtFgetsLoop_fills_bound NEWT_FGETS_BUFFSIZE hB charSigned mem
      (stream.unread.length + 1) ⟨newtRef.NIL, stream, 0⟩ (Or.inl rfl) (Nat.lt_succ_self _)
    refine ⟨out, hout, ?_, ?_⟩
    · exact NewtFgetsLoop_fuel_mono NEWT_FGETS_BUFFSIZE charSigned mem _ _ out hout
    · simpa using hb
  · intro s buff s1 h
    exact fgets_takes_a_byte NEWT_FGETS_BUFFSIZE hB s buff s1 h
  · intro st st1 h
    have := (NewtFgetsBody_again NEWT_FGETS_BUFFSIZE hB charSigned mem st st1 h).2
    omega

/-- C16 with a buffer of 5 bytes on "abcdefgh\\n", nine bytes: the call
returns after three fills, and 9 / 4 + 1 = 3; the first fill leaves five of
the nine bytes, and so does the first pass of the loop, which runs again. -/
theorem C16_terminates_with_bounded_fills_witness :
    (∃ out, NewtFgets 5 true ObjMem.unbounded
        (FILE.ofBytes [97, 98, 99, 100, 101, 102, 103, 104, 10]) = some out ∧
      out.fills ≤ 9 / (5 - 1) + 1) ∧
    (FILE.ofBytes [101, 102, 103, 104, 10]).unread.length <
      (FILE.ofBytes [97, 98, 99, 100, 101, 102, 103, 104, 10]).unread.length ∧
    (⟨newtRef.String [97, 98, 99, 100], FILE.ofBytes [101, 102, 103, 104, 10], 1⟩ :
        FgetsState).stream.unread.length <
      (⟨newtRef.NIL, FILE.ofBytes [97, 98, 99, 100, 101, 102, 103, 104, 10], 0⟩ :
        FgetsState).stream.unread.length := by
  have h := C16_terminates_with_bounded_fills 5 (by decide) true ObjMem.unbounded
    (FILE.ofBytes [97, 98, 99, 100, 101, 102, 103, 104, 10])
  obtain ⟨⟨out, hout, -, hb⟩, hfill, hpass⟩ := h
  exact ⟨⟨out, hout, hb⟩,
    hfill (FILE.ofBytes [97, 98, 99, 100, 101, 102, 103, 104, 10]) [97, 98, 99, 100, 0]
      (FILE.ofBytes [101, 102, 103, 104, 10]) (by decide),
    hpass ⟨newtRef.NIL, FILE.ofBytes [97, 98, 99, 100, 101, 102, 103, 104, 10], 0⟩
      ⟨newtRef.String [97, 98, 99, 100], FILE.ofBytes [101, 102, 103, 104, 10], 1⟩
      (by decide)⟩

/-! ### Embedded NUL bytes -/

theorem cstr_length_lt_of_mem_NUL (r : List Byte) (h : NUL ∈ r) :
    (cstr r).length < r.length := by
  induction r with
  | nil => simp at h
  | cons b r ih =>
    rw [cstr_cons]
    by_cases hb : b = NUL
    · simp [hb]
    · have hr : NUL ∈ r := by
        rcases List.mem_cons.mp h with h1 | h1
        · exact absurd h1.symm hb
        · exact h1
      simp [hb]
      exact ih hr

/-- A pass whose fill contains a NUL byte stores the bytes before the first
NUL, leaves the source after the whole fill, and ends the call. -/
theorem NewtFgetsBody_fill_with_NUL (B : Nat) (hB : 2 ≤ B) (sg : Bool) (mem : ObjMem)
    (hm : mem.AllocOK) (st : FgetsState)
    (hr : st.result = newtRef.NIL ∨ NewtRefIsString st.result = true)
    (hne : st.stream.unread ≠ [])
    (hnul : NUL ∈ (fgetsRead (B - 1) st.stream.unread).1) :
    NewtFgetsBody B sg mem st =
      some (FgetsStep.ret
        ⟨newtRef.String (accText st.result ++ cstr (fgetsRead (B - 1) st.stream.unread).1),
         { st.stream with unread := (fgetsRead (B - 1) st.stream.unread).2 },
         st.fills + 1⟩) := by
  rw [NewtFgetsBody_fill B hB sg mem hm st hr hne]
  apply NewtFgetsCheck_short
  have h1 := cstr_length_lt_of_mem_NUL _ hnul
  have h2 := fgetsRead_length_le (B - 1) st.stream.unread
  omega

/-- C17, with allocation succeeding. A pass of the loop whose fill contains a
NUL byte adds to the result only the bytes of that fill before its first NUL,
leaves the source after the whole fill, and ends the call; an input that
starts with a NUL byte yields the empty string, not nil. The length
statement for NUL-free input does not hold: when the CR of each of two CRLF
lines `s ++ "\r\n"` is the last byte of a full buffer, both LF are taken
from the source and neither is stored, so the returned string
`s ++ "\r" ++ s ++ "\r"` is two bytes shorter than what was consumed. -/
theorem C17_embedded_NUL_and_absorbed_LF (charSigned : Bool) (mem : ObjMem)
    (hm : mem.AllocOK) :
    (∀ (B : Nat) (st : FgetsState), 2 ≤ B →
      (st.result = newtRef.NIL ∨ NewtRefIsString st.result = true) →
      st.stream.unread ≠ [] →
      NUL ∈ (fgetsRead (B - 1) st.stream.unread).1 →
      NewtFgetsBody B charSigned mem st =
        some (FgetsStep.ret
          ⟨newtRef.String (accText st.result ++ cstr (fgetsRead (B - 1) st.stream.unread).1),
           { st.stream with unread := (fgetsRead (B - 1) st.stream.unread).2 },
           st.fills + 1⟩)) ∧
    (∀ (B : Nat) (stream : FILE) (rest : List Byte), 2 ≤ B →
      stream.unread = NUL :: rest →
      ∃ out, NewtFgets B charSigned mem stream = some out ∧
        out.result = newtRef.String [] ∧ out.result ≠ newtRef.NIL) ∧
    (∀ (s : List Byte) (stream : FILE),
      (∀ b ∈ s, b ≠ LF ∧ b ≠ NUL) →
      stream.unread = s ++ CR :: LF :: (s ++ CR :: LF :: []) →
      NewtFgets (s.length + 2) charSigned mem stream =
          some ⟨newtRef.String (s ++ [CR] ++ (s ++ [CR])), { stream with unread := [] }, 2⟩ ∧
        (s ++ [CR] ++ (s ++ [CR])).length + 2 = stream.unread.length) := by
  refine ⟨?_, ?_, ?_⟩
  · intro B st hB hr hne hnul
    exact NewtFgetsBody_fill_with_NUL B hB charSigned mem hm st hr hne hnul
  · intro B stream rest hB hin
    obtain ⟨m, rfl⟩ : ∃ m, B = m + 2 := ⟨B - 2, by omega⟩
    have hne : stream.unread ≠ [] := by rw [hin]; simp
    have hfirst : ∃ tl, (fgetsRead (m + 2 - 1) stream.unread).1 = NUL :: tl := by
      have e : m + 2 - 1 = m + 1 := by omega
      rw [e, hin]
      have hn : NUL ≠ LF := by decide
      exact ⟨(fgetsRead m rest).1, by simp [fgetsRead, hn]⟩
    obtain ⟨tl, htl⟩ := hfirst
    have hbody := NewtFgetsBody_fill_with_NUL (m + 2) hB charSigned mem hm
      ⟨newtRef.NIL, stream, 0⟩ (Or.inl rfl) hne (by rw [htl]; exact List.mem_cons_self _ _)
    simp only [htl, cstr_cons, accText] at hbody
    refine ⟨⟨newtRef.String [],
      { stream with unread := (fgetsRead (m + 2 - 1) stream.unread).2 }, 1⟩, ?_, rfl, ?_⟩
    · unfold NewtFgets
      rw [NewtFgetsLoop_ret _ _ _ _ _ _ hbody]
      simp
    · simp
  · intro s stream hs hin
    have hlen : stream.unread.length = (2 * s.length + 2) + 1 + 1 := by
      rw [hin]; simp; omega
    refine ⟨?_, ?_⟩
    · unfold NewtFgets
      rw [hlen, NewtFgetsLoop_full_CRLF charSigned mem hm _ ⟨newtRef.NIL, stream, 0⟩ (Or.inl rfl)
        s (s ++ CR :: LF :: []) hs hin]
      rw [NewtFgetsLoop_full_CRLF charSigned mem hm _
        ⟨newtRef.String (accText newtRef.NIL ++ (s ++ [CR])),
          { stream with unread := s ++ CR :: LF :: [] }, 0 + 1⟩ (Or.inr rfl) s [] hs rfl]
      apply NewtFgetsLoop_ret
      rw [NewtFgetsBody_eof (s.length + 2) (by omega) charSigned mem _ rfl]
      simp [accText]
    · rw [hin]; simp; omega

/-- C17 with a buffer of 5 bytes. The first fill of "ab\0dABC" is "ab\0d":
"ab" is stored, "ABC" is left and the call ends. The input "\0XY" yields the
empty string. The input "abc\r\nabc\r\n", ten bytes, is consumed whole
and yields the eight bytes "abc\rabc\r". -/
theorem C17_embedded_NUL_and_absorbed_LF_witness :
    NewtFgetsBody 5 true ObjMem.unbounded
        ⟨newtRef.NIL, FILE.ofBytes [97, 98, 0, 100, 65, 66, 67], 0⟩ =
      some (FgetsStep.ret ⟨newtRef.String [97, 98], FILE.ofBytes [65, 66, 67], 1⟩) ∧
    (∃ out, NewtFgets 5 true ObjMem.unbounded (FILE.ofBytes [0, 88, 89]) = some out ∧
      out.result = newtRef.String [] ∧ out.result ≠ newtRef.NIL) ∧
    NewtFgets 5 true ObjMem.unbounded
        (FILE.ofBytes [97, 98, 99, 13, 10, 97, 98, 99, 13, 10]) =
      some ⟨newtRef.String [97, 98, 99, 13, 97, 98, 99, 13], FILE.ofBytes [], 2⟩ :=
  ⟨(C17_embedded_NUL_and_absorbed_LF true ObjMem.unbounded (fun _ => rfl)).1 5
      ⟨newtRef.NIL, FILE.ofBytes [97, 98, 0, 100, 65, 66, 67], 0⟩ (by decide) (Or.inl rfl)
      (by decide) (by decide),
   (C17_embedded_NUL_and_absorbed_LF true ObjMem.unbounded (fun _ => rfl)).2.1 5
      (FILE.ofBytes [0, 88, 89]) [88, 89] (by decide) rfl,
   ((C17_embedded_NUL_and_absorbed_LF true ObjMem.unbounded (fun _ => rfl)).2.2
      [97, 98, 99] (FILE.ofBytes [97, 98, 99, 13, 10, 97, 98, 99, 13, 10])
      (by simp; decide) rfl).1⟩

end Newt0
